import Mathlib

/-!
Verification of `panda.py` (compilation/linking database reconstruction tool).

Shallow embedding conventions:
* Python `str` is modelled as `Str := List Char`; `str s` injects a Lean
  string literal.
* Python dicts are modelled as insertion-ordered association lists with
  update-in-place semantics (`dinsert`): an existing key keeps its position,
  a new key is appended, matching CPython 3.7+ dict ordering.
* Fallible Python code (raised exceptions) is modelled with `Except PErr`.
* Filesystem queries (`os.path.exists`) are modelled by an explicit
  predicate argument `fs : Str → Bool`.
* The regular expressions of `panda.py` are fixed and are translated one by
  one into decidable matching functions on `Str` (full-match or anchored
  prefix-match exactly as each pattern is used in the source).
* In-place mutation of lists and dicts is modelled by explicit state
  passing. Mutation internal to one dict (the alias database inside
  `SimplifyAlias`, including its `ret[src] = AD[src]` aliasing) is modelled
  exactly; object sharing across containers (a linking command's `files`
  list also being an alias-database value) is not — no claim below touches
  a run in which that sharing is observable.
-/

set_option maxHeartbeats 1000000

abbrev Str := List Char

def str (s : String) : Str := s.data

/-- Errors that the modelled Python code can raise. -/
inductive PErr where
  | stopIteration
  | keyError (k : Str)
  | indexError
  | attributeError
  | typeError
  | valueError
  | fuelOut
  deriving DecidableEq, Repr

/-! ## Character classes -/

def isWordDash (c : Char) : Bool :=
  c.isAlphanum || c = '_' || c = '-'

def isDigitDot (c : Char) : Bool :=
  c.isDigit || c = '.'

/-! ## POSIX path functions (`os.path`), as used by the source -/

/-- Model of `str.split('/')` for a Python string. -/
def splitSl : Str → List Str
  | [] => [[]]
  | c :: cs =>
    if c = '/' then [] :: splitSl cs
    else
      match splitSl cs with
      | [] => [[c]]
      | p :: ps => (c :: p) :: ps

/-- Model of `os.path.basename`: the part after the last `/`. -/
def pbasename (s : Str) : Str :=
  (splitSl s).getLastD []

/-- Model of `os.path.dirname`: everything up to the last `/`, with the
trailing slashes stripped unless the prefix consists only of slashes. -/
def pdirname (s : Str) : Str :=
  let headPart := s.take (s.length - (pbasename s).length)
  if headPart.any (· ≠ '/') then headPart.reverse.dropWhile (· = '/') |>.reverse
  else headPart

/-- Model of the two-argument `os.path.join`. -/
def pjoin (a b : Str) : Str :=
  if b.take 1 = str "/" then b
  else if a = [] ∨ a.getLastD ' ' = '/' then a ++ b
  else a ++ '/' :: b

/-- One step of the CPython `normpath` component loop. -/
def normStep (initialSlashes : Nat) (newComps : List Str) (comp : Str) : List Str :=
  if comp = [] ∨ comp = str "." then newComps
  else if comp ≠ str ".." ∨ (initialSlashes = 0 ∧ newComps = [])
      ∨ (newComps ≠ [] ∧ newComps.getLastD [] = str "..") then
    newComps ++ [comp]
  else if newComps ≠ [] then newComps.dropLast
  else newComps

def pnormpath (path : Str) : Str :=
  if path = [] then str "." else
  let initialSlashes : Nat :=
    if path.take 1 = str "/" then
      if path.take 2 = str "//" ∧ path.take 3 ≠ str "///" then 2 else 1
    else 0
  let comps := splitSl path
  let newComps := comps.foldl (normStep initialSlashes) []
  let joined := List.replicate initialSlashes '/' ++
    (newComps.intersperse (str "/")).flatten
  if joined = [] then str "." else joined

/-! ## File-name filters (`Default.*filter` regular expressions)

Each regex of the form `^[^-].*\.(e1|e2|...)$` full-matches a string that
does not start with `-`, has at least one character before the final
extension, and ends with `.` followed by one of the extensions. -/

/-- Does `s` full-match `[^-].*\.(ext)` for the literal extension `ext`? -/
def extMatch (s : Str) (ext : Str) : Bool :=
  s.take 1 ≠ str "-" && s.take 1 ≠ [] &&
    decide (('.' :: ext) <:+ s) && s.length ≥ ext.length + 2

/-- `Default.sourcefilter`:
`^[^-].*\.(c|C|cc|CC|cxx|cpp|c\+\+|i|ii|ixx|ipp|i\+\+)$`. -/
def sourceFilterB (s : Str) : Bool :=
  [str "c", str "C", str "cc", str "CC", str "cxx", str "cpp", str "c++",
   str "i", str "ii", str "ixx", str "ipp", str "i++"].any (extMatch s)

/-- `Default.asmfilter`: `^[^-].*\.(s|S|sx|asm)$`. -/
def asmFilterB (s : Str) : Bool :=
  [str "s", str "S", str "sx", str "asm"].any (extMatch s)

/-- `Default.objectfilter`: `^[^-].*\.(o|obj)$`. -/
def objectFilterB (s : Str) : Bool :=
  [str "o", str "obj"].any (extMatch s)

/-- The `so([\d.]+)?` alternative of `Default.sharedfilter`: `s` ends with
`.so` optionally followed by a nonempty run of digits and dots. The run is
recovered as the maximal digit-dot suffix (exact, since `.so` ends in `o`). -/
def soVersionMatch (s : Str) : Bool :=
  let stripped := (s.reverse.dropWhile isDigitDot).reverse
  extMatch stripped (str "so")

/-- `Default.sharedfilter`: `^[^-].*\.(so([\d.]+)?|dll)$`. -/
def sharedFilterB (s : Str) : Bool :=
  (s.take 1 ≠ str "-" && soVersionMatch s) || extMatch s (str "dll")

/-- `Default.archivefilter`: `^[^-].*\.(a|lib)$`. -/
def archiveFilterB (s : Str) : Bool :=
  [str "a", str "lib"].any (extMatch s)

/-- `Default.linksourcefilter`:
`^[^-].*\.(o|obj|so([\d.]+)?|dll|a|lib)$`, i.e. the union of the object,
shared and archive filters. -/
def linksourceFilterB (s : Str) : Bool :=
  objectFilterB s || sharedFilterB s || archiveFilterB s

/-! ## Executable-name filters

Patterns of the form `stem(-[\d.]+)?` full-match either the stem
alternatives alone or a stem followed by `-` and a nonempty digit-or-dot
run. Full-regex-match semantics is "some decomposition matches", realised
by trying every split of the string at a `-`. -/

/-- All ways to cut `s` as `a ++ '-' :: b`. -/
def dashSplits : Str → List (Str × Str)
  | [] => []
  | c :: cs =>
    (if c = '-' then [(([] : Str), cs)] else []) ++
      (dashSplits cs).map (fun p => (c :: p.1, p.2))

/-- Full-match of `stem(-[\d.]+)?` given a decider for the stem. -/
def withVersionSuffix (stem : Str → Bool) (s : Str) : Bool :=
  stem s || (dashSplits s).any fun p => stem p.1 && p.2 ≠ [] && p.2.all isDigitDot

/-- Stem of `CC1Filter.cc1filter`: `[\w-]*g?cc|[\w-]*[gc]\+\+|clang(\+\+)?`
(the optional `g` before `cc` is absorbed by `[\w-]*`). -/
def cc1Stem (s : Str) : Bool :=
  (s.all isWordDash && decide (str "cc" <:+ s)) ||
  (decide (str "g++" <:+ s) || decide (str "c++" <:+ s)) &&
    (s.dropLast.dropLast).all isWordDash ||
  s = str "clang" || s = str "clang++"

/-- `CC1Filter.cc1filter`: `^([\w-]*g?cc|[\w-]*[gc]\+\+|clang(\+\+)?)(-[\d.]+)?$`. -/
def isCc1ExeName (s : Str) : Bool := withVersionSuffix cc1Stem s

/-- Stem of the first `CC1JsonFilter.cc1filter` pattern: `[\w-]*g?cc|clang`. -/
def ccJson1Stem (s : Str) : Bool :=
  (s.all isWordDash && decide (str "cc" <:+ s)) || s = str "clang"

/-- First `CC1JsonFilter.cc1filter` pattern: `^([\w-]*g?cc|clang)(-[\d.]+)?$`. -/
def isCcJson1ExeName (s : Str) : Bool := withVersionSuffix ccJson1Stem s

/-- Stem of the second `CC1JsonFilter.cc1filter` pattern:
`[\w-]*[gc]\+\+|clang\+\+`. -/
def ccJson2Stem (s : Str) : Bool :=
  (decide (str "g++" <:+ s) || decide (str "c++" <:+ s)) &&
    (s.dropLast.dropLast).all isWordDash ||
  s = str "clang++"

/-- Second `CC1JsonFilter.cc1filter` pattern:
`^([\w-]*[gc]\+\+|clang\+\+)(-[\d.]+)?$`. -/
def isCcJson2ExeName (s : Str) : Bool := withVersionSuffix ccJson2Stem s

/-- `ARFilter.arfilter`: `^[\w-]*ar(-[\d.]+)?$`. -/
def isArExeName (s : Str) : Bool :=
  withVersionSuffix (fun t => t.all isWordDash && decide (str "ar" <:+ t)) s

/-- `LDFilter.ldfilter`: `^[\w-]*ld(-[\d.]+)?$`. -/
def isLdExeName (s : Str) : Bool :=
  withVersionSuffix (fun t => t.all isWordDash && decide (str "ld" <:+ t)) s

/-- `AliasFilter.clangfilter.exe`: `^clang(-[\d.]+)?$`. -/
def isClangExeName (s : Str) : Bool :=
  withVersionSuffix (fun t => t = str "clang") s

/-- `AliasFilter.cc1filter.exe`: `^[\w-]*cc1(plus)?(-[\d.]+)?$`. -/
def isCc1StageExeName (s : Str) : Bool :=
  withVersionSuffix
    (fun t => (t.all isWordDash && decide (str "cc1" <:+ t)) ||
      (decide (str "cc1plus" <:+ t) &&
        (t.take (t.length - 7)).all isWordDash)) s

/-- `AliasFilter.asfilter.exe`: `^[\w-]*as(-[\d.]+)?$`. -/
def isAsExeName (s : Str) : Bool :=
  withVersionSuffix (fun t => t.all isWordDash && decide (str "as" <:+ t)) s

/-! ## Flag matchers (`Filter.ParameterType` patterns)

A matcher models an anchored `re.match`: it returns `some (g, rem)` where
`g` is `match.group(0)` and `rem` the remainder (`arg[match.end():]`),
with `arg = g ++ rem`, or `none` when the pattern does not match. -/

abbrev Matcher := Str → Option (Str × Str)

/-- `^-o` (compiler and linker output flag). -/
def mOutO : Matcher := fun s =>
  if s.take 2 = str "-o" then some (s.take 2, s.drop 2) else none

/-- `^-[lL]`. -/
def mLl : Matcher := fun s =>
  if s.take 2 = str "-l" ∨ s.take 2 = str "-L" then some (s.take 2, s.drop 2)
  else none

/-- `^-M[TF]$`. -/
def mMTF : Matcher := fun s =>
  if s = str "-MT" ∨ s = str "-MF" then some (s, []) else none

/-- `^-(Wl,|shared|static)` (prefix match; alternatives are mutually
exclusive prefixes). -/
def mWlSharedStatic : Matcher := fun s =>
  if s.take 4 = str "-Wl," then some (s.take 4, s.drop 4)
  else if s.take 7 = str "-shared" then some (s.take 7, s.drop 7)
  else if s.take 7 = str "-static" then some (s.take 7, s.drop 7)
  else none

/-- Full-match decider for `^-(v|Werror(=.+)?|Wall|Wextra|M[DGMPQ]*|)$`. -/
def noParamStem (s : Str) : Bool :=
  s = str "-v" || s = str "-Wall" || s = str "-Wextra" || s = str "-" ||
  (s.take 7 = str "-Werror" &&
    (s.drop 7 = [] || (s.take 8 = str "-Werror=" && s.length ≥ 9))) ||
  (s.take 2 = str "-M" && (s.drop 2).all (fun c => c ∈ ['D', 'G', 'M', 'P', 'Q']))

/-- `^-(v|Werror(=.+)?|Wall|Wextra|M[DGMPQ]*|)$` as a matcher. -/
def mNoParam : Matcher := fun s => if noParamStem s then some (s, []) else none

/-- `^-(w|g|O([0123sg]|fast)?)$` (the extra removable pattern of
`CC1JsonFilter.cc1remove`). -/
def mWGO : Matcher := fun s =>
  if s ∈ [str "-w", str "-g", str "-O", str "-O0", str "-O1", str "-O2",
          str "-O3", str "-Os", str "-Og", str "-Ofast"] then some (s, [])
  else none

/-- `^-main-file-name$` (`AliasFilter.clangfilter.input`). -/
def mMainFileName : Matcher := fun s =>
  if s = str "-main-file-name" then some (s, []) else none

/-- `^-dumpbase$` (`AliasFilter.cc1filter.input`). -/
def mDumpbase : Matcher := fun s =>
  if s = str "-dumpbase" then some (s, []) else none

/-- `Default.asmfilter` used as `AliasFilter.asfilter.input` matcher (it is
anchored on both sides, so a match is the whole token). -/
def mAsmInput : Matcher := fun s =>
  if asmFilterB s then some (s, []) else none

/-! ## `Filter`: the token-scanning engine -/

/-- `Filter.MatchParameter`: on a match, the pieces kept are `group(0)`
plus, for a glued parameter, the remainder; `count` further tokens are
pulled from the token stream (`next(i)` raising `StopIteration` when the
stream is exhausted). Returns the kept pieces and the number of stream
tokens consumed. -/
def matchParameter (m : Matcher) (count : Nat) (arg : Str)
    (rest : List Str) : Option (Except PErr (List Str × Nat)) :=
  match m arg with
  | none => none
  | some (g, rem) =>
    let ret := if rem ≠ [] then [g, rem] else [g]
    let cnt := if rem ≠ [] then count - 1 else count
    if rest.length < cnt then some (.error .stopIteration)
    else some (.ok (ret ++ rest.take cnt, cnt))

/-- `Filter.MatchRemove`: try each removable pattern in order; the first
match removes the token (consuming the pattern's parameter count). -/
def matchRemove : List (Matcher × Nat) → Str → List Str →
    Except PErr (Option Nat)
  | [], _, _ => .ok none
  | (m, c) :: rs, arg, rest =>
    match matchParameter m c arg rest with
    | none => matchRemove rs arg rest
    | some (.error e) => .error e
    | some (.ok (_, cnt)) => .ok (some cnt)

/-- Output-recognition rule: `Filter.MatchOutput` (flag pattern with a
parameter count) or the `ARFilter.MatchOutput` override (a positional
token matching the archive filter, consuming nothing). -/
inductive OutputRule where
  | param (m : Matcher) (count : Nat)
  | positional (p : Str → Bool)

def matchOutputRule (r : OutputRule) (arg : Str) (rest : List Str) :
    Except PErr (Option (List Str × Nat)) :=
  match r with
  | .param m c =>
    match matchParameter m c arg rest with
    | none => .ok none
    | some (.error e) => .error e
    | some (.ok p) => .ok (some p)
  | .positional p => if p arg then .ok (some ([arg], 0)) else .ok none

/-- `Filter.MatchSource`: join with the working directory, match the base
name against the source pattern, and keep the path if it exists on disk
(`fs`) or lies under `/tmp/`. -/
def matchSource (srcFilter : Str → Bool) (fs : Str → Bool) (pwd arg : Str) :
    Option Str :=
  let arg := pjoin pwd arg
  if srcFilter (pbasename arg) && (fs arg || arg.take 5 = str "/tmp/") then
    some arg
  else none

/-- One tool profile: executable recognition (returning the value
`MatchExec` yields), abort tokens, removable patterns, output rule and
source pattern, mirroring `Filter.FilterType`. -/
structure FilterSpec where
  execMap : Str → Option Str
  abort : List Str
  remove : List (Matcher × Nat)
  output : OutputRule
  source : Str → Bool

/-- Scanner state: tracked files, reconstructed arguments, output path
(`some []` models the Python empty string, which is falsy). -/
structure PState where
  files : List Str
  arguments : List Str
  output : Option Str
  deriving DecidableEq, Repr

/-- The token loop of `Filter.ParseExecutionCommands`: abort check, then
removable patterns, then output, then source, else pass-through. `ok none`
models the `return None` on an abort token. The fuel only bounds the
number of iterations so that the recursion is structural: every step
consumes at least the current token, so any fuel at least the list length
never runs out. -/
def ploop (F : FilterSpec) (fs : Str → Bool) (pwd : Str) :
    Nat → List Str → PState → Except PErr (Option PState)
  | _, [], st => .ok (some st)
  | 0, _ :: _, _ => .error .fuelOut
  | fuel + 1, arg :: rest, st =>
    if F.abort ≠ [] ∧ arg ∈ F.abort then .ok none
    else
      match matchRemove F.remove arg rest with
      | .error e => .error e
      | .ok (some cnt) => ploop F fs pwd fuel (rest.drop cnt) st
      | .ok none =>
        match matchOutputRule F.output arg rest with
        | .error e => .error e
        | .ok (some (target, cnt)) =>
          let out := pjoin pwd (target.getLastD [])
          ploop F fs pwd fuel (rest.drop cnt)
            { st with
              arguments := st.arguments ++
                (if target.length ≠ 1 then target.dropLast else []) ++ [out],
              output := some out }
        | .ok none =>
          match matchSource F.source fs pwd arg with
          | some src =>
            ploop F fs pwd fuel rest
              { st with files := st.files ++ [src],
                        arguments := st.arguments ++ [src] }
          | none =>
            ploop F fs pwd fuel rest
              { st with arguments := st.arguments ++ [arg] }

/-- Result tuple of `Filter.ParseExecutionCommands`. -/
structure ParseRes where
  exe : Str
  pwd : Str
  files : List Str
  arguments : List Str
  output : Option Str
  oindex : Option Nat
  deriving DecidableEq, Repr

/-- The return statement of `Filter.ParseExecutionCommands`: the result
tuple records the output's index in the reconstructed arguments
(`list.index` raising `ValueError` if absent, and a falsy empty output
giving index `None`). -/
def finishParse (exeRes pwd : Str) (st : PState) :
    Except PErr (Option ParseRes) :=
  match st.output with
  | none => .ok (some ⟨exeRes, pwd, st.files, st.arguments, none, none⟩)
  | some o =>
    if o = [] then
      .ok (some ⟨exeRes, pwd, st.files, st.arguments, some o, none⟩)
    else if o ∈ st.arguments then
      .ok (some ⟨exeRes, pwd, st.files, st.arguments, some o,
        some (st.arguments.indexOf o)⟩)
    else .error .valueError

/-- `Filter.ParseExecutionCommands`. `next(args)` on an empty vector
raises `StopIteration`; an unmatched executable or an abort token yields
`None` (`ok none`). -/
def parseExecutionCommands (F : FilterSpec) (fs : Str → Bool) :
    List Str → Str → Except PErr (Option ParseRes)
  | [], _ => .error .stopIteration
  | exe :: rest, pwd =>
    match F.execMap exe with
    | none => .ok none
    | some exeRes =>
      match ploop F fs pwd rest.length rest ⟨[], [], none⟩ with
      | .error e => .error e
      | .ok none => .ok none
      | .ok (some st) => finishParse exeRes pwd st

/-! ## Tool profiles -/

/-- `CC1Filter.cc1remove`. -/
def cc1RemoveList : List (Matcher × Nat) :=
  [(mLl, 1), (mMTF, 1), (mWlSharedStatic, 0), (mNoParam, 0)]

/-- `CC1Filter.cc1abort`. -/
def cc1AbortList : List Str :=
  [str "-E", str "-cc1", str "-cc1as", str "-M", str "-MM", str "-###",
   str "-fsyntax-only"]

/-- The `CC1Filter` profile (compiler driver). -/
def cc1Spec : FilterSpec where
  execMap := fun exe => if isCc1ExeName (pbasename exe) then some exe else none
  abort := cc1AbortList
  remove := cc1RemoveList
  output := .param mOutO 1
  source := sourceFilterB

/-- The `ARFilter` profile (archiver). `abort=None` and `remove=None` are
modelled by empty lists (both are falsy in the Python guards). -/
def arSpec : FilterSpec where
  execMap := fun exe => if isArExeName (pbasename exe) then some exe else none
  abort := []
  remove := []
  output := .positional archiveFilterB
  source := objectFilterB

/-- The `LDFilter` profile (linker). -/
def ldSpec : FilterSpec where
  execMap := fun exe => if isLdExeName (pbasename exe) then some exe else none
  abort := []
  remove := []
  output := .param mOutO 1
  source := linksourceFilterB

/-- `CC1JsonFilter.cc1remove` (adds the `-w`/`-g`/`-O*` pattern). -/
def cc1JsonRemoveList : List (Matcher × Nat) := cc1RemoveList ++ [(mWGO, 0)]

/-- The `CC1JsonFilter` profile; `cc`/`cxx` are the configured compilers
installed by `CC1JsonFilter.setCompilers` and returned by its `MatchExec`
override (`cc1compiler[index]`). -/
def ccJsonSpec (cc cxx : Str) : FilterSpec where
  execMap := fun exe =>
    let b := pbasename exe
    if isCcJson1ExeName b then some cc
    else if isCcJson2ExeName b then some cxx
    else none
  abort := cc1AbortList
  remove := cc1JsonRemoveList
  output := .param mOutO 1
  source := sourceFilterB

/-- `CompilingCommands` namedtuple (output of `CC1Filter.MatchArguments`). -/
structure CompilingCmd where
  compiler : Str
  directory : Str
  files : List Str
  arguments : List Str
  output : Option Str
  oindex : Option Nat
  compilation : Bool
  deriving DecidableEq, Repr

/-- `LinkingCommands` namedtuple (output of `ARFilter`/`LDFilter`
`MatchArguments`). -/
structure LinkingCmd where
  linker : Str
  directory : Str
  files : List Str
  arguments : List Str
  output : Option Str
  oindex : Option Nat
  archive : Bool
  deriving DecidableEq, Repr

/-- `CC1Filter.MatchArguments`: wrap a successful parse into
`CompilingCommands`, with `compilation = ('-c' in result[3])`. -/
def cc1MatchArguments (fs : Str → Bool) (arguments : List Str) (pwd : Str) :
    Except PErr (Option CompilingCmd) :=
  (parseExecutionCommands cc1Spec fs arguments pwd).map fun
    | none => none
    | some r => some ⟨r.exe, r.pwd, r.files, r.arguments, r.output, r.oindex,
        str "-c" ∈ r.arguments⟩

/-- `ARFilter.MatchArguments`. -/
def arMatchArguments (fs : Str → Bool) (arguments : List Str) (pwd : Str) :
    Except PErr (Option LinkingCmd) :=
  (parseExecutionCommands arSpec fs arguments pwd).map fun
    | none => none
    | some r => some ⟨r.exe, r.pwd, r.files, r.arguments, r.output, r.oindex,
        true⟩

/-- `LDFilter.MatchArguments`. -/
def ldMatchArguments (fs : Str → Bool) (arguments : List Str) (pwd : Str) :
    Except PErr (Option LinkingCmd) :=
  (parseExecutionCommands ldSpec fs arguments pwd).map fun
    | none => none
    | some r => some ⟨r.exe, r.pwd, r.files, r.arguments, r.output, r.oindex,
        false⟩

/-! ## `AliasFilter` -/

/-- The `for i in args` loop of `AliasFilter.MatchArguments`: the input and
output matchers each take the next token when their match starts with `-`,
and the matched token itself otherwise. -/
def aliasLoop (inputM outputM : Matcher) :
    List Str → Option Str → Option Str → Except PErr (Option Str × Option Str)
  | [], ifile, ofile => .ok (ifile, ofile)
  | i :: rest, ifile, ofile =>
    match inputM i with
    | some (g, _) =>
      if g.take 1 = str "-" then
        match rest with
        | [] => .error .stopIteration
        | x :: rest' => aliasLoop inputM outputM rest' (some x) ofile
      else aliasLoop inputM outputM rest (some g) ofile
    | none =>
      match outputM i with
      | some (g, _) =>
        if g.take 1 = str "-" then
          match rest with
          | [] => .error .stopIteration
          | x :: rest' => aliasLoop inputM outputM rest' ifile (some x)
        else aliasLoop inputM outputM rest ifile (some g)
      | none => aliasLoop inputM outputM rest ifile ofile

/-- `AliasFilter.MatchArguments`: recognize a `clang -cc1`, `cc1`/`cc1plus`
or assembler invocation and extract its single input/output rename edge
`{join(pwd, ifile): [join(pwd, ofile)]}` (empty-string files are falsy and
give `None`). -/
def aliasMatchArguments (arguments : List Str) (pwd : Str) :
    Except PErr (Option (Str × List Str)) :=
  let finish : Option Str × Option Str → Except PErr (Option (Str × List Str)) :=
    fun
    | (some fi, some fo) =>
      if fi ≠ [] ∧ fo ≠ [] then .ok (some (pjoin pwd fi, [pjoin pwd fo]))
      else .ok none
    | _ => .ok none
  match arguments with
  | [] => .error .stopIteration
  | exe0 :: rest =>
    let exename := pbasename exe0
    if isClangExeName exename then
      match rest with
      | [] => .error .stopIteration
      | a2 :: rest' =>
        if a2 = str "-cc1" then
          (aliasLoop mMainFileName mOutO rest' none none).bind finish
        else .ok none
    else if isCc1StageExeName exename then
      (aliasLoop mDumpbase mOutO rest none none).bind finish
    else if isAsExeName exename then
      (aliasLoop mAsmInput mOutO rest none none).bind finish
    else .ok none

/-! ## Python dicts

Insertion-ordered association lists: assignment to an existing key updates
it in place, a new key is appended (CPython 3.7+ semantics). Keys are
`Option Str` because `LinkingCommands.output` can be `None` and is used as
a dict key in `HandleCompileCommands`. -/

def dlookup {κ α : Type} [DecidableEq κ] : List (κ × α) → κ → Option α
  | [], _ => none
  | (k', v) :: rest, k => if k' = k then some v else dlookup rest k

def dinsert {κ α : Type} [DecidableEq κ] :
    List (κ × α) → κ → α → List (κ × α)
  | [], k, v => [(k, v)]
  | (k', v') :: rest, k, v =>
    if k' = k then (k', v) :: rest else (k', v') :: dinsert rest k v

/-- Values of the alias database. Outside `SimplifyAlias` every value is a
list of paths (`vlist`); `SimplifyAlias` stores strings (`vstr`) for
resolved names, and `vref k` models the Python aliasing assignment
`ret[src] = AD[src]` (same list object), materialised against the final
state of `AD` when the function returns. -/
inductive RVal where
  | vstr (s : Str)
  | vlist (l : List Str)
  | vref (k : Option Str)
  deriving DecidableEq, Repr

abbrev AliasMap := List (Option Str × RVal)

/-! ## `SimplifyAlias` -/

/-- One `next()` of the Python iterator over the live object `AD[src]`
(`for value in AD[src]`): index `i` against the current list (pops shrink
it), or against the characters of a string value. -/
def iterGet (ad : AliasMap) (src : Str) (i : Nat) : Option Str :=
  match dlookup ad (some src) with
  | some (.vlist l) => l.get? i
  | some (.vstr s) => (s.get? i).map (fun c => [c])
  | _ => none

/-- The body and loop of `for value in AD[src]` in `SimplifyAlias`:
non-object values take one alias hop via `AD[value].pop()` (mutating
`AD`); values under `/tmp/` are rewritten to `src + '.' + basename(value)`
and that name is also stored as the temp path's own mapped value;
otherwise the value maps to itself; the (possibly rewritten) value is
appended to `ret[src]`. The fuel bounds the iteration count (the index
grows by one per step while the list never grows). -/
def simpInner (src : Str) :
    Nat → Nat → AliasMap → AliasMap → Except PErr (AliasMap × AliasMap)
  | _, 0, _, _ => .error .fuelOut
  | i, fuel + 1, ad, ret =>
    match iterGet ad src i with
    | none => .ok (ad, ret)
    | some value =>
      let hop : Except PErr (Str × AliasMap) :=
        if objectFilterB value then .ok (value, ad)
        else
          match dlookup ad (some value) with
          | none => .error (.keyError value)
          | some (.vlist []) => .error .indexError
          | some (.vlist (x :: xs)) =>
            .ok ((x :: xs).getLastD [],
              dinsert ad (some value) (.vlist (x :: xs).dropLast))
          | some _ => .error .attributeError
      match hop with
      | .error e => .error e
      | .ok (value', ad') =>
        let (value2, ret2) :=
          if value'.take 5 = str "/tmp/" then
            let nn := src ++ '.' :: pbasename value'
            (nn, dinsert ret (some value') (.vstr nn))
          else (value', dinsert ret (some value') (.vstr value'))
        match dlookup ret2 (some src) with
        | some (.vlist l) =>
          simpInner src (i + 1) fuel ad'
            (dinsert ret2 (some src) (.vlist (l ++ [value2])))
        | some _ => .error .attributeError
        | none => .error (.keyError src)

/-- Fuel that always suffices for `simpInner` starting at index 0: one more
than the current length of `AD[src]`. -/
def innerFuel (ad : AliasMap) (src : Str) : Nat :=
  match dlookup ad (some src) with
  | some (.vlist l) => l.length + 1
  | some (.vstr s) => s.length + 1
  | _ => 1

/-- The `for src in AD` loop of `SimplifyAlias`: the key list is the
snapshot taken when iteration starts (pops never add or remove keys). A
`None` key raises `TypeError` in `sourcefilter.match`. Keys matching the
source filter get the resolution loop; assembler intermediates are
dropped; all other keys are copied by reference (`vref`). -/
def simpOuter :
    List (Option Str) → AliasMap → AliasMap → Except PErr (AliasMap × AliasMap)
  | [], ad, ret => .ok (ad, ret)
  | none :: _, _, _ => .error .typeError
  | some src :: ks, ad, ret =>
    if sourceFilterB src then
      match simpInner src 0 (innerFuel ad src) ad
          (dinsert ret (some src) (.vlist [])) with
      | .error e => .error e
      | .ok (ad', ret') => simpOuter ks ad' ret'
    else if asmFilterB src then simpOuter ks ad ret
    else simpOuter ks ad (dinsert ret (some src) (.vref (some src)))

/-- Replace each `vref k` by the final value of `AD` at `k` (the object it
aliases). -/
def materialize (ad ret : AliasMap) : AliasMap :=
  ret.map fun kv =>
    (kv.1, match kv.2 with
           | .vref rk => (dlookup ad rk).getD (.vlist [])
           | v => v)

/-- `SimplifyAlias`: returns the simplified map and the (possibly mutated)
input map. -/
def simplifyAlias (ad : AliasMap) : Except PErr (AliasMap × AliasMap) :=
  match simpOuter (ad.map Prod.fst) ad [] with
  | .error e => .error e
  | .ok (ad', ret) => .ok (materialize ad' ret, ad')

/-- The destination-rewrite of `SimplifyAlias`: a value under `/tmp/`
becomes the source path, a dot and the temp path's base name; any other
value names itself. -/
def gRew (s o : Str) : Str :=
  if o.take 5 = str "/tmp/" then s ++ '.' :: pbasename o else o

/-- Closed form of the resolution loop for a source whose destinations are
all object files (no alias hop, `AD` untouched): each destination appends
its possibly-rewritten name to `ret[src]` and stores that name under its
own key. -/
def simpFold (s : Str) : List Str → AliasMap → List Str → AliasMap
  | [], ret, _ => ret
  | o :: os, ret, acc =>
    simpFold s os
      (dinsert (dinsert ret (some o) (.vstr (gRew s o))) (some s)
        (.vlist (acc ++ [gRew s o])))
      (acc ++ [gRew s o])

/-! ## `ConstructCompilationDatabase` and `ConstructLinkingDatabase` -/

/-- Python `x in container` where the container is an alias-map value:
membership for a list, substring test for a string (raising `TypeError`
when a list is tested against a string). -/
def pyIn (x : RVal) (container : RVal) : Except PErr Bool :=
  match container with
  | .vlist l => .ok (match x with | .vstr s => s ∈ l | _ => false)
  | .vstr t => match x with
               | .vstr s => .ok (decide (s <:+: t))
               | _ => .error .typeError
  | .vref _ => .error .typeError

/-- Python `list.index`: first index of `x`, `ValueError` when absent. -/
def pyIndex {α : Type} [DecidableEq α] (l : List α) (x : α) :
    Except PErr Nat :=
  if x ∈ l then .ok (l.indexOf x) else .error .valueError

/-- Python `list.remove`: drop the first occurrence of `x`, `ValueError`
when absent. -/
def pyRemove {α : Type} [DecidableEq α] (l : List α) (x : α) :
    Except PErr (List α) :=
  if x ∈ l then .ok (l.eraseIdx (l.indexOf x)) else .error .valueError

/-- `CC1Filter.reformatInputFile`, generic in the argument element type
(`inj` injects the plain strings compared and inserted): keep `ifile`,
inserting `-c` before it if the invocation was not compile-only, and
remove every sibling tracked file. -/
def reformatInputFile {α : Type} [DecidableEq α] (inj : Str → α)
    (ifile : Str) (arguments : List α) (files : List Str)
    (compilation : Bool) : Except PErr (List α) :=
  match files with
  | [] => .ok arguments
  | rm :: rest =>
    if rm = ifile then
      if ¬compilation then
        match pyIndex arguments (inj ifile) with
        | .error e => .error e
        | .ok idx =>
          reformatInputFile inj ifile (arguments.insertIdx idx (inj (str "-c")))
            rest compilation
      else reformatInputFile inj ifile arguments rest compilation
    else
      match pyRemove arguments (inj rm) with
      | .error e => .error e
      | .ok args' => reformatInputFile inj ifile args' rest compilation

/-- One entry of the emitted `compile_commands.json`. -/
structure CDEntry where
  output : RVal
  directory : Str
  file : Str
  arguments : List RVal
  deriving DecidableEq, Repr

/-- The tie-break of `ConstructCompilationDatabase`: when the alias map
yields a list for the command's declared output, pick the first candidate
whose own resolved value occurs in the tracked file's alias value. -/
def tieBreak (ad : AliasMap) (ifile : Str) :
    List Str → RVal → Except PErr RVal
  | [], output => .ok output
  | out :: rest, output =>
    if (dlookup ad (some out)).isSome then
      match dlookup ad (some ifile) with
      | none => .error (.keyError ifile)
      | some fv =>
        match pyIn ((dlookup ad (some out)).getD (.vlist [])) fv with
        | .error e => .error e
        | .ok true => .ok ((dlookup ad (some out)).getD (.vlist []))
        | .ok false => tieBreak ad ifile rest output
    else tieBreak ad ifile rest output

/-- The per-tracked-file body of `ConstructCompilationDatabase`. -/
def constructOneCompile (ad : AliasMap) (cmd : CompilingCmd) (ifile : Str) :
    Except PErr CDEntry := do
  let arguments : List RVal := (cmd.compiler :: cmd.arguments).map .vstr
  let rawOut ← match dlookup ad cmd.output with
    | none => .error (.keyError (cmd.output.getD (str "None")))
    | some v => pure v
  let output ← match rawOut with
    | .vlist outs => tieBreak ad ifile outs (.vlist outs)
    | v => pure v
  let oindex ← match cmd.oindex with
    | none => .error .typeError
    | some i => pure i
  let arguments ←
    if oindex + 1 < arguments.length then
      pure (arguments.set (oindex + 1) output)
    else .error .indexError
  let arguments ← reformatInputFile RVal.vstr ifile arguments cmd.files
    cmd.compilation
  pure ⟨output, cmd.directory, ifile, arguments⟩

/-- `ConstructCompilationDatabase`: one entry per (command, tracked file). -/
def constructCompilationDatabase (cds : List CompilingCmd) (ad : AliasMap) :
    Except PErr (List CDEntry) :=
  cds.foldlM (fun acc cmd =>
    cmd.files.foldlM (fun acc ifile =>
      (constructOneCompile ad cmd ifile).map (acc ++ [·])) acc) []

/-- One entry of the emitted `link_commands.json` (`objects`, `archives`,
`shareds` keys are present only when nonempty). -/
structure LDEntry where
  output : Option Str
  directory : Str
  arguments : List RVal
  objects : Option (List RVal)
  archives : Option (List Str)
  shareds : Option (List Str)
  deriving DecidableEq, Repr

/-- The per-file partition loop of `ConstructLinkingDatabase`: files in the
alias map are classified by extension (objects are replaced by their
resolved names in both the argument list and the file list); files absent
from the alias map are dropped. -/
def partitionLinkFiles (ad : AliasMap) (snapshot : List Str)
    (files arguments : List RVal) (objs : List RVal) (archs sobjs : List Str) :
    Except PErr (List RVal × List RVal × List RVal × List Str × List Str) :=
  match snapshot with
  | [] => .ok (files, arguments, objs, archs, sobjs)
  | ifile :: rest =>
    match dlookup ad (some ifile) with
    | some v =>
      if objectFilterB ifile then do
        let ai ← pyIndex arguments (.vstr ifile)
        let fi ← pyIndex files (.vstr ifile)
        partitionLinkFiles ad rest (files.set fi v) (arguments.set ai v)
          (objs ++ [v]) archs sobjs
      else if sharedFilterB ifile then
        partitionLinkFiles ad rest files arguments objs archs (sobjs ++ [ifile])
      else
        partitionLinkFiles ad rest files arguments objs (archs ++ [ifile]) sobjs
    | none =>
      match pyRemove files (.vstr ifile) with
      | .error e => .error e
      | .ok files' => partitionLinkFiles ad rest files' arguments objs archs sobjs

/-- `ConstructLinkingDatabase`: partition each linking command's files,
discarding commands with no resolved file in any partition. -/
def constructLinkingDatabase (lds : List LinkingCmd) (ad : AliasMap) :
    Except PErr (List LDEntry) :=
  lds.foldlM (fun acc cmd => do
    let (_, arguments, objs, archs, sobjs) ←
      partitionLinkFiles ad cmd.files (cmd.files.map .vstr)
        (cmd.arguments.map .vstr) [] [] []
    if objs = [] ∧ archs = [] ∧ sobjs = [] then pure acc
    else
      pure (acc ++ [⟨cmd.output, cmd.directory, .vstr cmd.linker :: arguments,
        if objs ≠ [] then some objs else none,
        if archs ≠ [] then some archs else none,
        if sobjs ≠ [] then some sobjs else none⟩])) []

/-! ## `HandleCompileCommands`: classification of execution records -/

/-- One execution record (`{method, pid, ppid, pwd, arguments}`; only the
working directory and argument vector feed classification). -/
structure ExecRecord where
  pwd : Str
  arguments : List Str
  deriving DecidableEq, Repr

/-- The classification loop of `HandleCompileCommands`: compiler commands
with tracked files enter the compilation database; archiver/linker
commands with tracked files enter the linking database and record an alias
edge from their output; alias-stage records extend the alias database. -/
def classifyRecords (fs : Str → Bool) (records : List ExecRecord) :
    Except PErr (List CompilingCmd × List LinkingCmd × AliasMap) :=
  records.foldlM (fun (acc : List CompilingCmd × List LinkingCmd × AliasMap)
      r => do
    let (cdb, ldb, ad) := acc
    let cd ← cc1MatchArguments fs r.arguments r.pwd
    match cd with
    | some cd' =>
      if cd'.files ≠ [] then pure (cdb ++ [cd'], ldb, ad) else do
        goLink cdb ldb ad r
    | none => goLink cdb ldb ad r) ([], [], [])
where
  /-- Extend the alias map at `k` (`AliasDatabase[k] += al[k]` /
  `AliasDatabase[k] = al[k]`). -/
  adExtend (ad : AliasMap) (k : Option Str) (v : List Str) :
      Except PErr AliasMap :=
    match dlookup ad k with
    | some (.vlist l) => .ok (dinsert ad k (.vlist (l ++ v)))
    | some _ => .error .typeError
    | none => .ok (dinsert ad k (.vlist v))
  goLink (cdb : List CompilingCmd) (ldb : List LinkingCmd) (ad : AliasMap)
      (r : ExecRecord) :
      Except PErr (List CompilingCmd × List LinkingCmd × AliasMap) := do
    let ar ← arMatchArguments fs r.arguments r.pwd
    match ar with
    | some ar' =>
      if ar'.files ≠ [] then
        pure (cdb, ldb ++ [ar'], dinsert ad ar'.output (.vlist ar'.files))
      else goLd cdb ldb ad r
    | none => goLd cdb ldb ad r
  goLd (cdb : List CompilingCmd) (ldb : List LinkingCmd) (ad : AliasMap)
      (r : ExecRecord) :
      Except PErr (List CompilingCmd × List LinkingCmd × AliasMap) := do
    let ld ← ldMatchArguments fs r.arguments r.pwd
    match ld with
    | some ld' =>
      if ld'.files ≠ [] then
        pure (cdb, ldb ++ [ld'], dinsert ad ld'.output (.vlist ld'.files))
      else goAlias cdb ldb ad r
    | none => goAlias cdb ldb ad r
  goAlias (cdb : List CompilingCmd) (ldb : List LinkingCmd) (ad : AliasMap)
      (r : ExecRecord) :
      Except PErr (List CompilingCmd × List LinkingCmd × AliasMap) := do
    let al ← aliasMatchArguments r.arguments r.pwd
    match al with
    | some (k, v) => (adExtend ad (some k) v).map (fun ad' => (cdb, ldb, ad'))
    | none => pure (cdb, ldb, ad)

/-- `HandleCompileCommands` without the file I/O: classify all records,
simplify the alias database, and construct both databases. -/
def handleCompileCommands (fs : Str → Bool) (records : List ExecRecord) :
    Except PErr (List CDEntry × List LDEntry × AliasMap) := do
  let (cdb, ldb, ad) ← classifyRecords fs records
  let (adSimp, _) ← simplifyAlias ad
  let cdJson ← constructCompilationDatabase cdb adSimp
  let ldJson ← constructLinkingDatabase ldb adSimp
  pure (cdJson, ldJson, adSimp)

/-! ## `CC1JsonFilter` and `ParseCompilationCommands` -/

/-- One compilation-database entry in `arguments` form (entries carrying a
`command` string are split by `shlex` into the same form before
classification and are not modelled further). -/
structure CDJob where
  directory : Str
  file : Str
  arguments : List Str
  deriving DecidableEq, Repr

/-- `CC1Filter.getTargetID`: last character of the directory part, a dot,
and the base name (`''[-1]` raises `IndexError`). -/
def getTargetID (name : Str) : Except PErr Str :=
  match (pdirname name).getLast? with
  | none => .error .indexError
  | some c => .ok (c :: '.' :: pbasename name)

/-- `CC1JsonFilter.cc1append`. -/
def cc1AppendList : List Str := [str "-w", str "-g", str "-O0"]

/-- Result of `CC1JsonFilter.MatchArguments`: the `compilation` field holds
the original database entry. -/
structure JsonCompilingCmd where
  compiler : Str
  directory : Str
  files : List Str
  arguments : List Str
  output : Str
  oindex : Option Nat
  compilation : CDJob
  deriving DecidableEq, Repr

/-- `CC1JsonFilter.MatchArguments`: classification with the json profile;
`result[4]` is read before the `if result` guard, so a failed parse raises
`TypeError` instead of returning `None`; a non-object output is replaced
by a name derived from the entry's source file and the target id, written
back into the reconstructed arguments at the output index; the `-w -g -O0`
tail is appended. -/
def ccJsonMatchArguments (cc cxx : Str) (fs : Str → Bool) (job : CDJob) :
    Except PErr (Option JsonCompilingCmd) :=
  match parseExecutionCommands (ccJsonSpec cc cxx) fs job.arguments
      job.directory with
  | .error e => .error e
  | .ok none => .error .typeError
  | .ok (some r) =>
    match r.output with
    | none => .error .typeError
    | some o =>
      if objectFilterB o then
        .ok (some ⟨r.exe, r.pwd, r.files, r.arguments ++ cc1AppendList, o,
          r.oindex, job⟩)
      else
        match getTargetID o with
        | .error e => .error e
        | .ok target =>
          let output := job.file ++ '.' :: target ++ str ".o"
          match r.oindex with
          | none => .error .typeError
          | some oindex =>
            if oindex < r.arguments.length then
              .ok (some ⟨r.exe, r.pwd, r.files,
                (r.arguments.set oindex output) ++ cc1AppendList, output,
                r.oindex, job⟩)
            else .error .indexError

/-- The per-entry body of `ParseCDList`: join the entry's `file` with its
directory, classify it, reformat the argument list for the single input
file, and store the result keyed by output path. -/
def parseCDJob (cc cxx : Str) (fs : Str → Bool)
    (acc : List (Str × JsonCompilingCmd)) (job : CDJob) :
    Except PErr (List (Str × JsonCompilingCmd)) :=
  let job := { job with file := pjoin job.directory job.file }
  match ccJsonMatchArguments cc cxx fs job with
  | .error e => .error e
  | .ok none => .error .attributeError
  | .ok (some p) =>
    match reformatInputFile id job.file p.arguments p.files
        (str "-c" ∈ p.arguments) with
    | .error e => .error e
    | .ok args => .ok (dinsert acc p.output { p with arguments := args })

/-- `ParseCDList`: process every entry, keying the resulting dict by
output path. An empty database gives `None`. -/
def parseCDList (cc cxx : Str) (fs : Str → Bool) (jobs : List CDJob) :
    Except PErr (Option (List (Str × JsonCompilingCmd))) :=
  if jobs = [] then .ok none
  else (jobs.foldlM (parseCDJob cc cxx fs) []).map some

/-- `LinkingAlias` namedtuple. -/
structure LinkAlias where
  output : Str
  objects : List Str
  libraries : List Str
  deriving DecidableEq, Repr

/-- One linking-database entry in `arguments` form (`objects`, `archives`
and `shareds` are optional keys; `output` and `directory` are always read). -/
structure LDJob where
  output : Str
  directory : Str
  arguments : List Str
  objects : Option (List Str)
  archives : Option (List Str)
  shareds : Option (List Str)
  deriving DecidableEq, Repr

/-- The per-entry body of `ParseLDList`: join paths with the directory and
record the target's `LinkingAlias`. `job['objects']` is read
unconditionally (a missing key raises `KeyError`); the `libraries` value
follows the Python conditional-expression grouping
`a if 'archives' in job else ([] + s if 'shareds' in job else [])`:
when `archives` is present the `shareds` list is not consulted. -/
def parseLDJob (acc : List (Str × LinkAlias)) (job : LDJob) :
    Except PErr (List (Str × LinkAlias)) := do
  let output := pjoin job.directory job.output
  let objects' := job.objects.map (List.map (pjoin job.directory))
  let archives' := job.archives.map (List.map (pjoin job.directory))
  let shareds' := job.shareds.map (List.map (pjoin job.directory))
  let objs ← match objects' with
    | none => .error (.keyError (str "objects"))
    | some l => pure l
  let libraries := match archives' with
    | some a => a
    | none => match shareds' with
              | some s => [] ++ s
              | none => []
  pure (dinsert acc output ⟨output, objs, libraries⟩)

/-- `ParseLDList`: build the per-target `LinkingAlias` dict. An empty
database gives `None`. -/
def parseLDList (jobs : List LDJob) :
    Except PErr (Option (List (Str × LinkAlias))) :=
  if jobs = [] then .ok none
  else (jobs.foldlM parseLDJob []).map some

/-! ## `DeductTargets`: transitive target expansion -/

/-- The `for lib in target.libraries` loop of `DeductOneTarget`: each
library is looked up in the linking database (`ldb[lib]` raising
`KeyError` when absent), expanded by `f` (the recursive call), and its
expansion appended to the memo entry of the enclosing target. -/
def deductLibs (ldb : List (Str × LinkAlias))
    (f : List (Str × List Str) → LinkAlias →
      Except PErr (List Str × List (Str × List Str))) (tout : Str) :
    List Str → List (Str × List Str) → Except PErr (List (Str × List Str))
  | [], dep => .ok dep
  | lib :: libs, dep =>
    match dlookup ldb lib with
    | none => .error (.keyError lib)
    | some t =>
      match f dep t with
      | .error e => .error e
      | .ok (objs, dep') =>
        deductLibs ldb f tout libs
          (dinsert dep' tout ((dlookup dep' tout).getD [] ++ objs))

/-- `DeductOneTarget`: memoized expansion of one link target. A target not
yet in the memo map records its direct objects and then walks its
libraries via `deductLibs`. The memo entry is written before recursing,
which is what makes the Python recursion terminate; the fuel (one more
than the number of link targets suffices) only bounds the recursion depth
so that the definition is structural. -/
def deductOneTarget (ldb : List (Str × LinkAlias)) :
    Nat → List (Str × List Str) → LinkAlias →
    Except PErr (List Str × List (Str × List Str))
  | 0, _, _ => .error .fuelOut
  | fuel + 1, dep, target =>
    match dlookup dep target.output with
    | some objs => .ok (objs, dep)
    | none =>
      let dep := dinsert dep target.output target.objects
      match deductLibs ldb (deductOneTarget ldb fuel) target.output
          target.libraries dep with
      | .error e => .error e
      | .ok dep' => .ok ((dlookup dep' target.output).getD [], dep')

/-- `DeductTargets`: expand every target of the linking database in order,
threading the memo map. -/
def deductTargets (ldb : List (Str × LinkAlias)) (fuel : Nat) :
    Except PErr (List (Str × List Str)) :=
  ldb.foldlM (fun dep kv =>
    (deductOneTarget ldb fuel dep kv.2).map Prod.snd) []

/-! ## Artifact destination paths and the fail-fast checks -/

/-- `Default.GetPreprocessOutputName`:
`normpath(join(outputdir, 'preprocess-root', './' + OriginOutput + sufix))`. -/
def getPreprocessOutputName (outputdir originOutput sufix : Str) : Str :=
  pnormpath (pjoin (pjoin outputdir (str "preprocess-root"))
    ('.' :: '/' :: (originOutput ++ sufix)))

/-- The destination path of one scheduled artifact job
(`MakeExecutedCommand`): output root, the database entry's output path and
the kind-specific extension. -/
def artifactDestination (outputRoot : Str) (job : JsonCompilingCmd)
    (ext : Str) : Str :=
  getPreprocessOutputName outputRoot job.output ext

/-- The slice of the configuration relevant to the fail-fast tool checks
in `ParseArguments`. -/
structure OptsSlice where
  build : Bool
  ast : Bool
  i : Bool
  ll : Bool
  bc : Bool
  fm : Bool
  ls : Bool
  cp : Bool
  output : Str
  cc : Str
  cxx : Str
  cfm : Str
  deriving DecidableEq, Repr

/-- Observable effects of the start-up path. -/
inductive Effect where
  | makeDirs (p : Str)
  | printErr (s : Str)
  | exitWith (code : Nat)
  | scheduleJobs
  deriving DecidableEq, Repr

/-- The diagnostic printed by `checkCommandExecutable`. -/
def missingToolMessage (cmd opt : Str) (errText : Str) : Str :=
  str "Error:\tRequired tool \"" ++ pbasename cmd ++
  str "\" not available.\n\tPlease check your settings of \"" ++ opt ++
  str "\" or \"--clang-path\".\npopen: " ++ errText

/-- `checkCommandExecutable` as a trace: `toolErr cmd` gives the `errno`
and message of the `OSError` raised by `popen` for an unavailable tool, or
`none` when the tool runs. On failure the diagnostic is printed and the
process exits with the error's `errno`. -/
def checkTool (toolErr : Str → Option (Nat × Str)) (cmd opt : Str) :
    List Effect × Bool :=
  match toolErr cmd with
  | none => ([], true)
  | some (errno, msg) =>
    ([.printErr (missingToolMessage cmd opt msg), .exitWith errno], false)

/-- The effect trace of the tail of `ParseArguments` (from the output
directory creation through the tool checks), followed by job scheduling in
`main` when no check aborted: `os.makedirs(opts.output)` runs when the
output directory does not exist and any output-producing option is set,
and only then are the required tools checked. -/
def startupTrace (o : OptsSlice) (outputExists : Bool)
    (toolErr : Str → Option (Nat × Str)) : List Effect :=
  let mk : List Effect :=
    if ¬outputExists ∧ (o.build ∨ o.ast ∨ o.i ∨ o.ll ∨ o.bc ∨ o.fm ∨
        o.ls ∨ o.cp) then
      [.makeDirs o.output]
    else []
  let (t1, ok1) :=
    if o.fm then checkTool toolErr o.cfm (str "--cfm") else ([], true)
  if ¬ok1 then mk ++ t1
  else
    let (t2, ok2) :=
      if o.ast ∨ o.i ∨ o.ll ∨ o.bc then
        checkTool toolErr o.cc (str "--cc")
      else ([], true)
    if ¬ok2 then mk ++ t1 ++ t2
    else
      let (t3, ok3) :=
        if o.ast ∨ o.i ∨ o.ll ∨ o.bc then
          checkTool toolErr o.cxx (str "--cxx")
        else ([], true)
      if ¬ok3 then mk ++ t1 ++ t2 ++ t3
      else mk ++ t1 ++ t2 ++ t3 ++ [.scheduleJobs]

/-! ## Decidable equality for `Except` results -/

deriving instance DecidableEq for Except

instance : DecidableEq (Option (List Str) × Except PErr (Option (List Str))) :=
  inferInstance

/-! ## Concrete inputs used by specific claims -/

/-- A filesystem on which no path exists. -/
def fsNone : Str → Bool := fun _ => false

/-- A filesystem containing only `/w/foo.c` (scenario B). -/
def fsScenB : Str → Bool := fun p => p = str "/w/foo.c"

/-- The execution records of end-to-end scenario B: the driver invocation
`clang foo.c -o foo`, the internal compile stage renaming `foo.c` to
`/tmp/xyz.o`, and the link step consuming `/tmp/xyz.o` into `foo`. -/
def recScenB : List ExecRecord :=
  [⟨str "/w", [str "clang", str "foo.c", str "-o", str "foo"]⟩,
   ⟨str "/w", [str "clang", str "-cc1", str "-main-file-name", str "foo.c",
     str "-o", str "/tmp/xyz.o"]⟩,
   ⟨str "/w", [str "ld", str "/tmp/xyz.o", str "-o", str "foo"]⟩]

/-- An alias map with a compilable source under `/tmp`: its rewritten
destination lands under `/tmp` again, so a second simplification rewrites
it once more. -/
def adTmpSrc : AliasMap := [(some (str "/tmp/foo.c"), .vlist [str "/tmp/x.o"])]

/-- A linking database whose only target references a library that is not
a key of the database. -/
def ldbUnknownLib : List (Str × LinkAlias) :=
  [(str "/t/a.out", ⟨str "/t/a.out", [str "/t/a.o"], [str "/t/missing.a"]⟩)]

/-- A `link_commands.json` content whose first target carries both an
`archives` and a `shareds` list, each naming another target of the
database. -/
def ldJobsBoth : List LDJob :=
  [⟨str "a.out", str "/t", [], some [str "m.o"], some [str "x.a"],
    some [str "y.so"]⟩,
   ⟨str "x.a", str "/t", [], some [str "xa.o"], none, none⟩,
   ⟨str "y.so", str "/t", [], some [str "ys.o"], none, none⟩]

/-- A filesystem containing the two sources of the duplicate-output run. -/
def fsDup : Str → Bool := fun p => p = str "/w/a.c" || p = str "/w/b.c"

/-- Execution records of a build in which two different sources are
compiled to the same output path `x.o` (each driver invocation paired with
its internal compile stage). -/
def recDup : List ExecRecord :=
  [⟨str "/w", [str "clang", str "-c", str "a.c", str "-o", str "x.o"]⟩,
   ⟨str "/w", [str "clang", str "-cc1", str "-main-file-name", str "a.c",
     str "-o", str "x.o"]⟩,
   ⟨str "/w", [str "clang", str "-c", str "b.c", str "-o", str "x.o"]⟩,
   ⟨str "/w", [str "clang", str "-cc1", str "-main-file-name", str "b.c",
     str "-o", str "x.o"]⟩]

/-- A filesystem containing only `/w/a.c`. -/
def fsAC : Str → Bool := fun p => p = str "/w/a.c"

/-- Two compilation-database entries for the same source file `/w/a.c`
with different output paths. -/
def jobsSameSource : List CDJob :=
  [⟨str "/w", str "a.c", [str "gcc", str "-O2", str "-Wall", str "-g",
    str "-c", str "a.c", str "-o", str "x.o"]⟩,
   ⟨str "/w", str "a.c", [str "gcc", str "-c", str "a.c", str "-o",
    str "y.o"]⟩]

/-- The dict produced by re-parsing `jobsSameSource` (compiler paths `cc`
and `c++`): one entry per output path, keyed by it. -/
def dC9 : List (Str × JsonCompilingCmd) :=
  [(str "/w/x.o", ⟨str "cc", str "/w", [str "/w/a.c"],
    [str "-c", str "/w/a.c", str "-o", str "/w/x.o", str "-w", str "-g",
     str "-O0"], str "/w/x.o", some 3,
    ⟨str "/w", str "/w/a.c", [str "gcc", str "-O2", str "-Wall", str "-g",
     str "-c", str "a.c", str "-o", str "x.o"]⟩⟩),
   (str "/w/y.o", ⟨str "cc", str "/w", [str "/w/a.c"],
    [str "-c", str "/w/a.c", str "-o", str "/w/y.o", str "-w", str "-g",
     str "-O0"], str "/w/y.o", some 3,
    ⟨str "/w", str "/w/a.c", [str "gcc", str "-c", str "a.c", str "-o",
     str "y.o"]⟩⟩)]

/-- An options slice requesting AST generation with a missing output
directory. -/
def optsAstOnly : OptsSlice :=
  ⟨false, true, false, false, false, false, false, false, str "/out",
   str "clang", str "clang++", str "clang-extdef-mapping"⟩

/-- A toolchain on which `clang` cannot be executed (`errno 2`). -/
def toolErrNoClang : Str → Option (Nat × Str) :=
  fun c => if c = str "clang" then some (2, str "[Errno 2] No such file") else none

/-- A cyclic linking database: `A` and `B` each list the other as a
library dependency. -/
def ldbCyclic : List (Str × LinkAlias) :=
  [(str "A", ⟨str "A", [str "a.o"], [str "B"]⟩),
   (str "B", ⟨str "B", [str "b.o"], [str "A"]⟩)]

/-- A path component that is usable verbatim by `normpath`: nonempty, not
`.` or `..`, and free of `/`. -/
def goodComp (c : Str) : Prop :=
  c ≠ [] ∧ c ≠ str "." ∧ c ≠ str ".." ∧ '/' ∉ c

instance (c : Str) : Decidable (goodComp c) := by
  unfold goodComp
  infer_instance

/-- The absolute path `/c1/c2/.../cn` built from components. -/
def absOf (comps : List Str) : Str :=
  comps.foldl (fun acc c => acc ++ '/' :: c) []

/-! ## Helper lemmas: matchers -/

/-- The tokens that, scanned by the compiler profile, pull one further
token from the stream (each is an exact match of a parameter-taking
pattern: `-o`, `^-[lL]` with separate parameter, `^-M[TF]$`). -/
def cc1Binding : List Str :=
  [str "-o", str "-l", str "-L", str "-MT", str "-MF"]

/-- The linker profile's only parameter-taking flag. -/
def ldBinding : List Str := [str "-o"]

theorem matchParameter_none {m : Matcher} {c : Nat} {arg : Str}
    {rest : List Str} (h : m arg = none) :
    matchParameter m c arg rest = none := by
  unfold matchParameter
  rw [h]

theorem matchParameter_spec (m : Matcher) (c : Nat) (arg : Str)
    (rest : List Str) :
    matchParameter m c arg rest =
      match m arg with
      | none => none
      | some (g, rem) =>
        if rest.length < (if rem ≠ [] then c - 1 else c) then
          some (.error .stopIteration)
        else
          some (.ok ((if rem ≠ [] then [g, rem] else [g]) ++
            rest.take (if rem ≠ [] then c - 1 else c),
            if rem ≠ [] then c - 1 else c)) := by
  unfold matchParameter
  cases h : m arg with
  | none => rfl
  | some p => rfl

theorem matchParameter_eq_none {m : Matcher} {c : Nat} {arg : Str}
    {rest : List Str} (h : matchParameter m c arg rest = none) :
    m arg = none := by
  rw [matchParameter_spec] at h
  cases hm : m arg with
  | none => rfl
  | some p =>
    obtain ⟨g, rem⟩ := p
    rw [hm] at h
    exfalso
    split at h
    · rename_i heq
      exact Option.noConfusion heq
    · split at h <;> split at h <;> exact Option.noConfusion h

theorem matchParameter_zero (m : Matcher) (arg : Str) (rest : List Str) :
    matchParameter m 0 arg rest = none ∨
    ∃ ret, matchParameter m 0 arg rest = some (.ok (ret, 0)) := by
  unfold matchParameter
  cases h : m arg with
  | none => exact Or.inl rfl
  | some p =>
    right
    by_cases hrem : p.2 ≠ []
    · exact ⟨[p.1, p.2], by simp [hrem]⟩
    · exact ⟨[p.1], by simp [hrem]⟩

theorem matchParameter_one (m : Matcher) (arg : Str) (rest : List Str) :
    matchParameter m 1 arg rest = none ∨
    (∃ ret, matchParameter m 1 arg rest = some (.ok (ret, 0))) ∨
    ((∃ g, m arg = some (g, [])) ∧
      ((rest = [] ∧ matchParameter m 1 arg rest = some (.error .stopIteration))
        ∨ (∃ ret, rest ≠ [] ∧
            matchParameter m 1 arg rest = some (.ok (ret, 1))))) := by
  unfold matchParameter
  cases h : m arg with
  | none => exact Or.inl rfl
  | some p =>
    obtain ⟨g, rem⟩ := p
    by_cases hrem : rem ≠ []
    · exact Or.inr (Or.inl ⟨[g, rem] ++ rest.take 0, by simp [hrem]⟩)
    · rw [not_not] at hrem
      subst hrem
      right; right
      refine ⟨⟨g, rfl⟩, ?_⟩
      cases rest with
      | nil => exact Or.inl ⟨rfl, by simp⟩
      | cons r rs =>
        exact Or.inr ⟨[g] ++ [r], by simp, by simp [List.take]⟩

theorem mLl_exact {arg g : Str} (h : mLl arg = some (g, [])) :
    arg = str "-l" ∨ arg = str "-L" := by
  unfold mLl at h
  split at h
  · rename_i hc
    have h2 : arg.drop 2 = ([] : Str) := congrArg Prod.snd (Option.some.inj h)
    have harg : arg = arg.take 2 := by
      conv_lhs => rw [← List.take_append_drop 2 arg]
      rw [h2, List.append_nil]
    rcases hc with hc | hc
    · exact Or.inl (harg.trans hc)
    · exact Or.inr (harg.trans hc)
  · exact Option.noConfusion h

theorem mMTF_exact {arg g : Str} (h : mMTF arg = some (g, [])) :
    arg = str "-MT" ∨ arg = str "-MF" := by
  unfold mMTF at h
  split at h
  · assumption
  · exact Option.noConfusion h

theorem mOutO_exact {arg g : Str} (h : mOutO arg = some (g, [])) :
    arg = str "-o" := by
  unfold mOutO at h
  split at h
  · rename_i hc
    have h2 : arg.drop 2 = ([] : Str) := congrArg Prod.snd (Option.some.inj h)
    have harg : arg = arg.take 2 := by
      conv_lhs => rw [← List.take_append_drop 2 arg]
      rw [h2, List.append_nil]
    exact harg.trans hc
  · exact Option.noConfusion h

theorem mOutO_group {arg g rem : Str} (h : mOutO arg = some (g, rem)) :
    g = str "-o" := by
  unfold mOutO at h
  split at h
  · rename_i hc
    have h1 : arg.take 2 = g := congrArg Prod.fst (Option.some.inj h)
    exact h1.symm.trans hc
  · exact Option.noConfusion h


theorem matchRemove_cons_none {m : Matcher} {c : Nat}
    {rs : List (Matcher × Nat)} {arg : Str} {rest : List Str}
    (h : matchParameter m c arg rest = none) :
    matchRemove ((m, c) :: rs) arg rest = matchRemove rs arg rest := by
  conv_lhs => rw [matchRemove]
  rw [h]

theorem matchRemove_cons_ok {m : Matcher} {c : Nat}
    {rs : List (Matcher × Nat)} {arg : Str} {rest : List Str}
    {ret : List Str} {n : Nat}
    (h : matchParameter m c arg rest = some (.ok (ret, n))) :
    matchRemove ((m, c) :: rs) arg rest = .ok (some n) := by
  unfold matchRemove
  rw [h]

theorem matchRemove_cons_err {m : Matcher} {c : Nat}
    {rs : List (Matcher × Nat)} {arg : Str} {rest : List Str} {e : PErr}
    (h : matchParameter m c arg rest = some (.error e)) :
    matchRemove ((m, c) :: rs) arg rest = .error e := by
  unfold matchRemove
  rw [h]

theorem matchRemove_all_none {rms : List (Matcher × Nat)} {arg : Str}
    {rest : List Str} (h : matchRemove rms arg rest = .ok none) :
    ∀ mc ∈ rms, matchParameter mc.1 mc.2 arg rest = none := by
  induction rms with
  | nil => intro mc hmc; exact absurd hmc (List.not_mem_nil mc)
  | cons hd tl ih =>
    intro mc hmc
    obtain ⟨m, c⟩ := hd
    cases hp : matchParameter m c arg rest with
    | none =>
      rw [matchRemove_cons_none hp] at h
      rcases List.mem_cons.mp hmc with hmc | hmc
      · subst hmc; exact hp
      · exact ih h mc hmc
    | some r =>
      exfalso
      cases r with
      | error e => rw [matchRemove_cons_err hp] at h; exact Except.noConfusion h
      | ok p =>
        obtain ⟨ret, n⟩ := p
        rw [matchRemove_cons_ok hp] at h
        exact Option.noConfusion (Except.ok.inj h)

theorem matchRemove_append (l1 l2 : List (Matcher × Nat)) (arg : Str)
    (rest : List Str) :
    matchRemove (l1 ++ l2) arg rest =
      match matchRemove l1 arg rest with
      | .ok none => matchRemove l2 arg rest
      | r => r := by
  induction l1 with
  | nil => rfl
  | cons hd tl ih =>
    obtain ⟨m, c⟩ := hd
    rw [List.cons_append]
    cases hp : matchParameter m c arg rest with
    | none =>
      rw [matchRemove_cons_none hp, matchRemove_cons_none hp, ih]
    | some r =>
      cases r with
      | error e => rw [matchRemove_cons_err hp, matchRemove_cons_err hp]
      | ok p =>
        obtain ⟨ret, n⟩ := p
        rw [matchRemove_cons_ok hp, matchRemove_cons_ok hp]

/-- Characterization of the compiler profile's removable patterns: they
never raise unless the token is exactly `-l`, `-L`, `-MT` or `-MF`
(parameter-binding) while the stream is exhausted, and they consume one
stream token exactly for those binding tokens. -/
theorem matchRemove_cc1_char (arg : Str) (rest : List Str) :
    matchRemove cc1RemoveList arg rest = .ok none ∨
    (∃ n, matchRemove cc1RemoveList arg rest = .ok (some n) ∧
      (n = 0 ∨ (n = 1 ∧ arg ∈ cc1Binding ∧ rest ≠ []))) ∨
    (matchRemove cc1RemoveList arg rest = .error .stopIteration ∧
      arg ∈ cc1Binding ∧ rest = []) := by
  unfold cc1RemoveList
  rcases matchParameter_one mLl arg rest with h1 | ⟨ret, h1⟩ | ⟨⟨g, hg⟩, h1⟩
  · rw [matchRemove_cons_none h1]
    rcases matchParameter_one mMTF arg rest with h2 | ⟨ret, h2⟩ | ⟨⟨g, hg⟩, h2⟩
    · rw [matchRemove_cons_none h2]
      rcases matchParameter_zero mWlSharedStatic arg rest with h3 | ⟨ret, h3⟩
      · rw [matchRemove_cons_none h3]
        rcases matchParameter_zero mNoParam arg rest with h4 | ⟨ret, h4⟩
        · rw [matchRemove_cons_none h4]
          exact Or.inl rfl
        · exact Or.inr (Or.inl ⟨0, matchRemove_cons_ok h4, Or.inl rfl⟩)
      · exact Or.inr (Or.inl ⟨0, matchRemove_cons_ok h3, Or.inl rfl⟩)
    · exact Or.inr (Or.inl ⟨0, matchRemove_cons_ok h2, Or.inl rfl⟩)
    · have hmem : arg ∈ cc1Binding := by
        rcases mMTF_exact hg with h | h <;> subst h <;> decide
      rcases h2 with ⟨hrest, herr⟩ | ⟨ret, hrest, hok⟩
      · exact Or.inr (Or.inr ⟨matchRemove_cons_err herr, hmem, hrest⟩)
      · exact Or.inr (Or.inl ⟨1, matchRemove_cons_ok hok,
          Or.inr ⟨rfl, hmem, hrest⟩⟩)
  · exact Or.inr (Or.inl ⟨0, matchRemove_cons_ok h1, Or.inl rfl⟩)
  · have hmem : arg ∈ cc1Binding := by
      rcases mLl_exact hg with h | h <;> subst h <;> decide
    rcases h1 with ⟨hrest, herr⟩ | ⟨ret, hrest, hok⟩
    · exact Or.inr (Or.inr ⟨matchRemove_cons_err herr, hmem, hrest⟩)
    · exact Or.inr (Or.inl ⟨1, matchRemove_cons_ok hok,
        Or.inr ⟨rfl, hmem, hrest⟩⟩)

/-- The same characterization for `CC1JsonFilter.cc1remove` (the extra
`-w`/`-g`/`-O*` pattern consumes nothing). -/
theorem matchRemove_ccJson_char (arg : Str) (rest : List Str) :
    matchRemove cc1JsonRemoveList arg rest = .ok none ∨
    (∃ n, matchRemove cc1JsonRemoveList arg rest = .ok (some n) ∧
      (n = 0 ∨ (n = 1 ∧ arg ∈ cc1Binding ∧ rest ≠ []))) ∨
    (matchRemove cc1JsonRemoveList arg rest = .error .stopIteration ∧
      arg ∈ cc1Binding ∧ rest = []) := by
  unfold cc1JsonRemoveList
  rw [matchRemove_append]
  rcases matchRemove_cc1_char arg rest with h | ⟨n, h, hn⟩ | ⟨h, hmem, hrest⟩
  · rw [h]
    rcases matchParameter_zero mWGO arg rest with h4 | ⟨ret, h4⟩
    · rw [matchRemove_cons_none h4]
      exact Or.inl rfl
    · exact Or.inr (Or.inl ⟨0, matchRemove_cons_ok h4, Or.inl rfl⟩)
  · rw [h]
    exact Or.inr (Or.inl ⟨n, rfl, hn⟩)
  · rw [h]
    exact Or.inr (Or.inr ⟨rfl, hmem, hrest⟩)

theorem matchOutput_param_eq (m : Matcher) (c : Nat) (arg : Str)
    (rest : List Str) :
    matchOutputRule (.param m c) arg rest =
      match matchParameter m c arg rest with
      | none => .ok none
      | some (.error e) => .error e
      | some (.ok p) => .ok (some p) := rfl

theorem matchOutput_positional_eq (p : Str → Bool) (arg : Str)
    (rest : List Str) :
    matchOutputRule (.positional p) arg rest =
      if p arg then .ok (some ([arg], 0)) else .ok none := rfl

/-- Characterization of the `-o` output rule: a match records a target of
the form `["-o", x]`; one stream token is consumed exactly when the token
is the bare `-o` (and `StopIteration` is raised when the stream is empty). -/
theorem matchOutput_outO_char (arg : Str) (rest : List Str) :
    matchOutputRule (.param mOutO 1) arg rest = .ok none ∨
    (∃ x n, matchOutputRule (.param mOutO 1) arg rest =
        .ok (some ([str "-o", x], n)) ∧
      (n = 0 ∨ (n = 1 ∧ arg = str "-o" ∧ rest ≠ []))) ∨
    (matchOutputRule (.param mOutO 1) arg rest = .error .stopIteration ∧
      arg = str "-o" ∧ rest = []) := by
  rw [matchOutput_param_eq, matchParameter_spec]
  cases hm : mOutO arg with
  | none => exact Or.inl rfl
  | some p =>
    obtain ⟨g, rem⟩ := p
    have hg : g = str "-o" := mOutO_group hm
    subst hg
    by_cases hrem : rem = []
    · subst hrem
      cases rest with
      | nil =>
        exact Or.inr (Or.inr ⟨by simp, mOutO_exact hm, rfl⟩)
      | cons r rs =>
        refine Or.inr (Or.inl ⟨r, 1, ?_, Or.inr ⟨rfl, mOutO_exact hm, by simp⟩⟩)
        simp [List.take]
    · refine Or.inr (Or.inl ⟨rem, 0, ?_, Or.inl rfl⟩)
      simp [hrem]

theorem matchOutput_positional_char (p : Str → Bool) (arg : Str)
    (rest : List Str) :
    matchOutputRule (.positional p) arg rest = .ok none ∨
    matchOutputRule (.positional p) arg rest = .ok (some ([arg], 0)) := by
  rw [matchOutput_positional_eq]
  split
  · exact Or.inr rfl
  · exact Or.inl rfl

theorem matchSource_eq (f : Str → Bool) (fs : Str → Bool) (pwd arg : Str) :
    matchSource f fs pwd arg =
      if f (pbasename (pjoin pwd arg)) &&
          (fs (pjoin pwd arg) || decide ((pjoin pwd arg).take 5 = str "/tmp/"))
        then some (pjoin pwd arg) else none := rfl

theorem matchSource_eq_some {f : Str → Bool} {fs : Str → Bool}
    {pwd arg src : Str} (h : matchSource f fs pwd arg = some src) :
    src = pjoin pwd arg := by
  rw [matchSource_eq] at h
  split at h
  · exact (Option.some.inj h).symm
  · exact Option.noConfusion h

theorem pjoin_abs {pwd : Str} (b : Str) (h : pwd.take 1 = str "/") :
    (pjoin pwd b).take 1 = str "/" := by
  have hne : pwd ≠ [] := by
    intro he
    rw [he] at h
    exact List.noConfusion h
  unfold pjoin
  split
  · assumption
  · obtain ⟨c, t, rfl⟩ := List.exists_cons_of_ne_nil hne
    split
    · simpa using h
    · simpa using h

theorem lastSafe_of_cons {B : List Str} {arg : Str} {rest : List Str}
    (h : ∀ x, (arg :: rest).getLast? = some x → x ∉ B) :
    ∀ x, rest.getLast? = some x → x ∉ B := by
  intro x hx
  apply h
  cases rest with
  | nil => exact Option.noConfusion hx
  | cons b l => rw [List.getLast?_cons_cons]; exact hx

theorem getLast?_of_drop {l : List Str} {n : Nat} {x : Str}
    (h : (l.drop n).getLast? = some x) : l.getLast? = some x := by
  induction l generalizing n with
  | nil => rw [List.drop_nil] at h; exact Option.noConfusion h
  | cons a t ih =>
    cases n with
    | zero => exact h
    | succ n =>
      rw [List.drop_succ_cons] at h
      have ht := ih h
      have : t ≠ [] := by
        intro he
        rw [he] at ht
        exact Option.noConfusion ht
      obtain ⟨b, l, rfl⟩ := List.exists_cons_of_ne_nil this
      rw [List.getLast?_cons_cons]
      exact ht

theorem lastSafe_drop {B : List Str} {l : List Str} (n : Nat)
    (h : ∀ x, l.getLast? = some x → x ∉ B) :
    ∀ x, (l.drop n).getLast? = some x → x ∉ B :=
  fun x hx => h x (getLast?_of_drop hx)

/-- Master safety lemma for the token loop: if every removable pattern and
the output rule of the profile can only consume a stream token or raise
`StopIteration` on the binding tokens `B` (hypotheses `hrm`, `hout`), then
the scan of a vector whose last token is not a binding token returns
without raising, and the recorded output is always one of the
reconstructed arguments. -/
theorem ploop_safe
    (F : FilterSpec) (B : List Str) (fs : Str → Bool) (pwd : Str)
    (hrm : ∀ arg rest, matchRemove F.remove arg rest = .ok none ∨
      (∃ n, matchRemove F.remove arg rest = .ok (some n) ∧
        (n = 0 ∨ (n = 1 ∧ arg ∈ B ∧ rest ≠ []))) ∨
      (matchRemove F.remove arg rest = .error .stopIteration ∧
        arg ∈ B ∧ rest = []))
    (hout : ∀ arg rest, matchOutputRule F.output arg rest = .ok none ∨
      (∃ t n, matchOutputRule F.output arg rest = .ok (some (t, n)) ∧
        (n = 0 ∨ (n = 1 ∧ arg ∈ B ∧ rest ≠ []))) ∨
      (matchOutputRule F.output arg rest = .error .stopIteration ∧
        arg ∈ B ∧ rest = [])) :
    ∀ fuel l st, l.length ≤ fuel → (∀ x, l.getLast? = some x → x ∉ B) →
      (∀ o, st.output = some o → o ∈ st.arguments) →
      ∃ res, ploop F fs pwd fuel l st = .ok res ∧
        ∀ st', res = some st' → ∀ o, st'.output = some o →
          o ∈ st'.arguments := by
  intro fuel
  induction fuel with
  | zero =>
    intro l st hlen hlast hinv
    have : l = [] := List.length_eq_zero.mp (Nat.le_zero.mp hlen)
    subst this
    exact ⟨some st, rfl, fun st' hst' => by cases hst'; exact hinv⟩
  | succ fuel ih =>
    intro l st hlen hlast hinv
    cases l with
    | nil =>
      exact ⟨some st, rfl, fun st' hst' => by cases hst'; exact hinv⟩
    | cons arg rest =>
      rw [ploop]
      split
      · exact ⟨none, rfl, fun st' hst' => Option.noConfusion hst'⟩
      · rcases hrm arg rest with h1 | ⟨n, h1, hn⟩ | ⟨h1, hmem, hrest⟩
        · rw [h1]
          rcases hout arg rest with h2 | ⟨t, n, h2, hn⟩ | ⟨h2, hmem, hrest⟩
          · rw [h2]
            cases hs : matchSource F.source fs pwd arg with
            | some src =>
              refine ih rest _ (Nat.le_of_succ_le_succ hlen)
                (lastSafe_of_cons hlast) ?_
              intro o ho
              exact List.mem_append_left _ (hinv o ho)
            | none =>
              refine ih rest _ (Nat.le_of_succ_le_succ hlen)
                (lastSafe_of_cons hlast) ?_
              intro o ho
              exact List.mem_append_left _ (hinv o ho)
          · rw [h2]
            refine ih (rest.drop n) _ ?_ ?_ ?_
            · exact le_trans (by simp)
                (Nat.le_of_succ_le_succ hlen)
            · exact lastSafe_drop n (lastSafe_of_cons hlast)
            · intro o ho
              simp only at ho
              cases ho
              simp
          · exact absurd ((hlast arg) (by rw [hrest]; rfl)) (not_not.mpr hmem)
        · rw [h1]
          refine ih (rest.drop n) _ ?_ (lastSafe_drop n (lastSafe_of_cons hlast))
            hinv
          exact le_trans (by simp)
            (Nat.le_of_succ_le_succ hlen)
        · exact absurd ((hlast arg) (by rw [hrest]; rfl)) (not_not.mpr hmem)

theorem ld_hrm (arg : Str) (rest : List Str) :
    matchRemove ldSpec.remove arg rest = .ok none ∨
    (∃ n, matchRemove ldSpec.remove arg rest = .ok (some n) ∧
      (n = 0 ∨ (n = 1 ∧ arg ∈ ldBinding ∧ rest ≠ []))) ∨
    (matchRemove ldSpec.remove arg rest = .error .stopIteration ∧
      arg ∈ ldBinding ∧ rest = []) :=
  Or.inl rfl

theorem outO_hout_of (B : List Str) (hB : str "-o" ∈ B) (arg : Str)
    (rest : List Str) :
    matchOutputRule (.param mOutO 1) arg rest = .ok none ∨
    (∃ t n, matchOutputRule (.param mOutO 1) arg rest = .ok (some (t, n)) ∧
      (n = 0 ∨ (n = 1 ∧ arg ∈ B ∧ rest ≠ []))) ∨
    (matchOutputRule (.param mOutO 1) arg rest = .error .stopIteration ∧
      arg ∈ B ∧ rest = []) := by
  rcases matchOutput_outO_char arg rest with h | ⟨x, n, h, hn⟩ | ⟨h, ho, hrest⟩
  · exact Or.inl h
  · refine Or.inr (Or.inl ⟨[str "-o", x], n, h, ?_⟩)
    rcases hn with hn | ⟨hn, ho, hrest⟩
    · exact Or.inl hn
    · exact Or.inr ⟨hn, ho ▸ hB, hrest⟩
  · exact Or.inr (Or.inr ⟨h, ho ▸ hB, hrest⟩)

theorem ar_hout (arg : Str) (rest : List Str) :
    matchOutputRule arSpec.output arg rest = .ok none ∨
    (∃ t n, matchOutputRule arSpec.output arg rest = .ok (some (t, n)) ∧
      (n = 0 ∨ (n = 1 ∧ arg ∈ ([] : List Str) ∧ rest ≠ []))) ∨
    (matchOutputRule arSpec.output arg rest = .error .stopIteration ∧
      arg ∈ ([] : List Str) ∧ rest = []) := by
  rcases matchOutput_positional_char archiveFilterB arg rest with h | h
  · exact Or.inl h
  · exact Or.inr (Or.inl ⟨[arg], 0, h, Or.inl rfl⟩)

/-- Safety of `Filter.ParseExecutionCommands` for a profile whose
parameter-binding tokens are `B`: if the last token of the vector after
the executable is not a binding token, no exception escapes. -/
theorem parseExecution_safe
    (F : FilterSpec) (B : List Str) (fs : Str → Bool) (pwd : Str)
    (hrm : ∀ arg rest, matchRemove F.remove arg rest = .ok none ∨
      (∃ n, matchRemove F.remove arg rest = .ok (some n) ∧
        (n = 0 ∨ (n = 1 ∧ arg ∈ B ∧ rest ≠ []))) ∨
      (matchRemove F.remove arg rest = .error .stopIteration ∧
        arg ∈ B ∧ rest = []))
    (hout : ∀ arg rest, matchOutputRule F.output arg rest = .ok none ∨
      (∃ t n, matchOutputRule F.output arg rest = .ok (some (t, n)) ∧
        (n = 0 ∨ (n = 1 ∧ arg ∈ B ∧ rest ≠ []))) ∨
      (matchOutputRule F.output arg rest = .error .stopIteration ∧
        arg ∈ B ∧ rest = []))
    (exe : Str) (rest : List Str)
    (hlast : ∀ b ∈ B, rest.getLast? ≠ some b) :
    ∃ r, parseExecutionCommands F fs (exe :: rest) pwd = .ok r := by
  cases hexe : F.execMap exe with
  | none => exact ⟨none, by rw [parseExecutionCommands, hexe]⟩
  | some exeRes =>
    have hlast' : ∀ x, rest.getLast? = some x → x ∉ B :=
      fun x hx hxB => (hlast x hxB) hx
    obtain ⟨res, hres, hinv⟩ := ploop_safe F B fs pwd hrm hout rest.length rest
      ⟨[], [], none⟩ le_rfl hlast' (fun o ho => Option.noConfusion ho)
    cases res with
    | none => exact ⟨none, by rw [parseExecutionCommands, hexe, hres]⟩
    | some st =>
      have heq : parseExecutionCommands F fs (exe :: rest) pwd =
          finishParse exeRes pwd st := by
        rw [parseExecutionCommands, hexe, hres]
      rw [heq]
      unfold finishParse
      cases ho : st.output with
      | none => exact ⟨some ⟨exeRes, pwd, st.files, st.arguments, none, none⟩,
          rfl⟩
      | some o =>
        by_cases hoe : o = []
        · subst hoe
          exact ⟨some ⟨exeRes, pwd, st.files, st.arguments, some [], none⟩,
            by simp⟩
        · have homem : o ∈ st.arguments := hinv st rfl o ho
          refine ⟨some ⟨exeRes, pwd, st.files, st.arguments, some o,
            some (st.arguments.indexOf o)⟩, ?_⟩
          simp [hoe, homem]

/-- One scan step of the compiler profile on a non-binding token never
pulls from the stream, so an abort token that is preceded only by
non-binding tokens is always reached and discards the invocation. -/
theorem ploop_cc1_abort (fs : Str → Bool) (pwd : Str) (a : Str)
    (ha : a ∈ cc1AbortList) :
    ∀ (pre post : List Str) (fuel : Nat) (st : PState),
      (pre ++ a :: post).length ≤ fuel →
      (∀ t ∈ pre, t ∉ cc1Binding) →
      ploop cc1Spec fs pwd fuel (pre ++ a :: post) st = .ok none := by
  intro pre
  induction pre with
  | nil =>
    intro post fuel st hlen hpre
    cases fuel with
    | zero => simp at hlen
    | succ fuel =>
      rw [List.nil_append, ploop, if_pos]
      exact ⟨by decide, ha⟩
  | cons t pre ih =>
    intro post fuel st hlen hpre
    cases fuel with
    | zero => simp at hlen
    | succ fuel =>
      rw [List.cons_append, ploop]
      by_cases hab : t ∈ cc1AbortList
      · rw [if_pos ⟨by decide, hab⟩]
      · rw [if_neg (fun hc => hab hc.2)]
        rw [show cc1Spec.remove = cc1RemoveList from rfl,
            show cc1Spec.output = OutputRule.param mOutO 1 from rfl]
        have ht : t ∉ cc1Binding := hpre t (List.mem_cons_self t pre)
        have hlen' : (pre ++ a :: post).length ≤ fuel := by
          simpa using Nat.le_of_succ_le_succ hlen
        have hpre' : ∀ x ∈ pre, x ∉ cc1Binding :=
          fun x hx => hpre x (List.mem_cons_of_mem t hx)
        rcases matchRemove_cc1_char t (pre ++ a :: post)
          with h1 | ⟨n, h1, hn⟩ | ⟨h1, hmem, _⟩
        · rw [h1]
          rcases matchOutput_outO_char t (pre ++ a :: post)
            with h2 | ⟨x, n, h2, hn⟩ | ⟨h2, hto, _⟩
          · rw [h2]
            cases hs : matchSource cc1Spec.source fs pwd t with
            | some src => exact ih post fuel _ hlen' hpre'
            | none => exact ih post fuel _ hlen' hpre'
          · have hn0 : n = 0 := by
              rcases hn with hn | ⟨_, hto, _⟩
              · exact hn
              · exact absurd (hto ▸ (by decide : str "-o" ∈ cc1Binding)) ht
            subst hn0
            rw [h2]
            exact ih post fuel _ hlen' hpre'
          · exact absurd (hto ▸ (by decide : str "-o" ∈ cc1Binding)) ht
        · have hn0 : n = 0 := by
            rcases hn with hn | ⟨_, hmem, _⟩
            · exact hn
            · exact absurd hmem ht
          subst hn0
          rw [h1]
          exact ih post fuel _ hlen' hpre'
        · exact absurd hmem ht

/-- C7 (amended): classification by the compiler profile returns `None`
for every vector in which an abort token appears as a scanned token, i.e.
one not consumed as the parameter of an earlier binding flag; here
guaranteed by no binding flag preceding it. A binding flag may swallow the
abort token as its parameter, in which case classification can succeed
(see the counterexample). -/
theorem claim_C7 (fs : Str → Bool) (pwd exe : Str) (pre post : List Str)
    (a : Str) (hexe : isCc1ExeName (pbasename exe) = true)
    (ha : a ∈ cc1AbortList) (hpre : ∀ t ∈ pre, t ∉ cc1Binding) :
    cc1MatchArguments fs (exe :: (pre ++ a :: post)) pwd = .ok none := by
  have hparse : parseExecutionCommands cc1Spec fs (exe :: (pre ++ a :: post))
      pwd = .ok none := by
    rw [parseExecutionCommands]
    have hm : cc1Spec.execMap exe = some exe := by
      show (if isCc1ExeName (pbasename exe) then some exe else none) = some exe
      rw [if_pos hexe]
    rw [hm, ploop_cc1_abort fs pwd a ha pre post _ _ le_rfl hpre]
  unfold cc1MatchArguments
  rw [hparse]
  rfl

/-- Witness for C7: `gcc -O2 -E a.c` contains the abort token `-E` in
scanned position and is classified as `None`. -/
theorem claim_C7_witness :
    cc1MatchArguments fsNone [str "gcc", str "-O2", str "-E", str "a.c"]
      (str "/w") = .ok none :=
  claim_C7 fsNone (str "/w") (str "gcc") [str "-O2"] [str "a.c"] (str "-E")
    (by decide) (by decide) (by decide)

/-- Counterexample to C7 as stated: the vector `gcc -MT -E` contains the
abort token `-E` exactly, yet classification returns a command (not
`None`), because `-MT` consumes `-E` as its parameter before the abort
check can see it. -/
theorem claim_C7_counterexample :
    str "-E" ∈ [str "gcc", str "-MT", str "-E"] ∧
    cc1MatchArguments fsNone [str "gcc", str "-MT", str "-E"] (str "/w") =
      .ok (some ⟨str "gcc", str "/w", [], [], none, none, false⟩) := by
  decide

/-- C2 (amended): classification is total except for one case.
`Filter.ParseExecutionCommands` returns `None` for unrecognized
executables or aborted invocations and passes malformed tokens through as
ordinary arguments; it never raises on the compiler and linker profiles
provided the last token of the vector is not a parameter-binding flag
(`-o`, `-l`, `-L`, `-MT`, `-MF` for the compiler; `-o` for the linker) —
if such a flag ends the vector, the `next(i)` lookahead escapes as
`StopIteration` (see the counterexample). The archiver profile consumes no
parameters and never raises on a nonempty vector. -/
theorem claim_C2 :
    (∀ (fs : Str → Bool) (pwd exe : Str) (rest : List Str),
      (∀ b ∈ cc1Binding, rest.getLast? ≠ some b) →
      ∃ r, parseExecutionCommands cc1Spec fs (exe :: rest) pwd = .ok r) ∧
    (∀ (fs : Str → Bool) (pwd exe : Str) (rest : List Str),
      (∀ b ∈ ldBinding, rest.getLast? ≠ some b) →
      ∃ r, parseExecutionCommands ldSpec fs (exe :: rest) pwd = .ok r) ∧
    (∀ (fs : Str → Bool) (pwd exe : Str) (rest : List Str),
      ∃ r, parseExecutionCommands arSpec fs (exe :: rest) pwd = .ok r) ∧
    (∀ (fs : Str → Bool) (pwd exe : Str) (rest : List Str),
      isCc1ExeName (pbasename exe) = false →
      parseExecutionCommands cc1Spec fs (exe :: rest) pwd = .ok none) := by
  refine ⟨?_, ?_, ?_, ?_⟩
  · intro fs pwd exe rest hlast
    exact parseExecution_safe cc1Spec cc1Binding fs pwd
      (fun arg rest => matchRemove_cc1_char arg rest)
      (fun arg rest => outO_hout_of cc1Binding (by decide) arg rest)
      exe rest hlast
  · intro fs pwd exe rest hlast
    exact parseExecution_safe ldSpec ldBinding fs pwd ld_hrm
      (fun arg rest => outO_hout_of ldBinding (by decide) arg rest)
      exe rest hlast
  · intro fs pwd exe rest
    exact parseExecution_safe arSpec [] fs pwd (fun _ _ => Or.inl rfl) ar_hout
      exe rest (fun b hb => absurd hb (List.not_mem_nil b))
  · intro fs pwd exe rest hexe
    rw [parseExecutionCommands]
    have hm : cc1Spec.execMap exe = none := by
      show (if isCc1ExeName (pbasename exe) then some exe else none) = none
      rw [if_neg (by rw [hexe]; exact Bool.false_ne_true)]
    rw [hm]

/-- Witness for C2: safe concrete vectors parse without exception on all
three profiles, and an unrecognized executable (`ld` against the compiler
profile) yields `None`. -/
theorem claim_C2_witness :
    (∃ r, parseExecutionCommands cc1Spec fsNone
      [str "gcc", str "-c", str "x.c"] (str "/w") = .ok r) ∧
    (∃ r, parseExecutionCommands ldSpec fsNone [str "ld", str "a.o"]
      (str "/w") = .ok r) ∧
    (∃ r, parseExecutionCommands arSpec fsNone [str "ar"] (str "/w") =
      .ok r) ∧
    parseExecutionCommands cc1Spec fsNone [str "ld", str "x.c"] (str "/w") =
      .ok none :=
  ⟨claim_C2.1 fsNone (str "/w") (str "gcc") [str "-c", str "x.c"]
    (by decide),
   claim_C2.2.1 fsNone (str "/w") (str "ld") [str "a.o"] (by decide),
   claim_C2.2.2.1 fsNone (str "/w") (str "ar") [],
   claim_C2.2.2.2 fsNone (str "/w") (str "ld") [str "x.c"] (by decide)⟩

/-- Counterexample to C2 as stated: a parameter-binding flag as the last
token of the vector makes classification raise `StopIteration` (the
`next(i)` in `Filter.MatchParameter`) on both the compiler and the linker
profiles, contradicting "never raises for malformed input". -/
theorem claim_C2_counterexample :
    parseExecutionCommands cc1Spec fsNone [str "gcc", str "-o"] (str "/w") =
      .error .stopIteration ∧
    parseExecutionCommands ldSpec fsNone [str "ld", str "-o"] (str "/w") =
      .error .stopIteration := by
  decide

/-! ## Helper lemmas: dictionaries and target expansion -/

theorem dlookup_mem {κ α : Type} [DecidableEq κ] {m : List (κ × α)} {k : κ}
    {v : α} (h : dlookup m k = some v) : (k, v) ∈ m := by
  induction m with
  | nil => exact Option.noConfusion h
  | cons hd tl ih =>
    obtain ⟨k', v'⟩ := hd
    unfold dlookup at h
    split at h
    · rename_i hk
      cases hk
      cases Option.some.inj h
      exact List.mem_cons_self _ _
    · exact List.mem_cons_of_mem _ (ih h)

theorem dlookup_dinsert_self {κ α : Type} [DecidableEq κ]
    (m : List (κ × α)) (k : κ) (v : α) :
    dlookup (dinsert m k v) k = some v := by
  induction m with
  | nil => simp [dinsert, dlookup]
  | cons hd tl ih =>
    obtain ⟨k', v'⟩ := hd
    unfold dinsert
    by_cases hk : k' = k
    · subst hk
      simp [dlookup]
    · rw [if_neg hk]
      unfold dlookup
      rw [if_neg hk]
      exact ih

theorem dlookup_dinsert_other {κ α : Type} [DecidableEq κ]
    (m : List (κ × α)) (k k' : κ) (v : α) (h : k' ≠ k) :
    dlookup (dinsert m k v) k' = dlookup m k' := by
  have hne : k ≠ k' := fun he => h he.symm
  induction m with
  | nil => simp [dinsert, dlookup, hne]
  | cons hd tl ih =>
    obtain ⟨k0, v0⟩ := hd
    by_cases hk : k0 = k
    · subst hk
      simp [dinsert, dlookup, hne]
    · simp only [dinsert, if_neg hk, dlookup]
      split
      · rfl
      · exact ih

theorem dlookup_isSome_dinsert {κ α : Type} [DecidableEq κ]
    {m : List (κ × α)} {k0 : κ} (k : κ) (v : α)
    (h : (dlookup m k0).isSome) : (dlookup (dinsert m k v) k0).isSome := by
  by_cases hk : k0 = k
  · subst hk
    rw [dlookup_dinsert_self]
    rfl
  · rw [dlookup_dinsert_other m k k0 v hk]
    exact h

/-- The measure for the memoized expansion: the number of linking-database
keys not yet in the memo map. -/
def notMemoCount (ldb : List (Str × LinkAlias))
    (dep : List (Str × List Str)) : Nat :=
  ((ldb.map Prod.fst).filter (fun k => !(dlookup dep k).isSome)).length

theorem length_filter_mono {α : Type} (p q : α → Bool)
    (h : ∀ x, q x = true → p x = true) :
    ∀ l : List α, (l.filter q).length ≤ (l.filter p).length := by
  intro l
  induction l with
  | nil => exact le_rfl
  | cons a t ih =>
    by_cases hq : q a = true
    · rw [List.filter_cons_of_pos hq, List.filter_cons_of_pos (h a hq)]
      simpa using ih
    · rw [List.filter_cons_of_neg (by simpa using hq)]
      by_cases hp : p a = true
      · rw [List.filter_cons_of_pos hp]
        exact le_trans ih (by simp)
      · rw [List.filter_cons_of_neg (by simpa using hp)]
        exact ih

theorem length_filter_strict {α : Type} (p q : α → Bool)
    (h : ∀ x, q x = true → p x = true) {l : List α} {x0 : α}
    (hx0 : x0 ∈ l) (hp : p x0 = true) (hq : q x0 = false) :
    (l.filter q).length < (l.filter p).length := by
  induction l with
  | nil => exact absurd hx0 (List.not_mem_nil x0)
  | cons a t ih =>
    rcases List.mem_cons.mp hx0 with ha | ha
    · subst ha
      rw [List.filter_cons_of_pos hp, List.filter_cons_of_neg (by simp [hq])]
      exact Nat.lt_succ_of_le (length_filter_mono p q h t)
    · by_cases hqa : q a = true
      · rw [List.filter_cons_of_pos hqa, List.filter_cons_of_pos (h a hqa)]
        simpa using ih ha
      · rw [List.filter_cons_of_neg (by simpa using hqa)]
        by_cases hpa : p a = true
        · rw [List.filter_cons_of_pos hpa]
          exact Nat.lt_succ_of_lt (ih ha)
        · rw [List.filter_cons_of_neg (by simpa using hpa)]
          exact ih ha

theorem notMemoCount_mono (ldb : List (Str × LinkAlias))
    {dep dep' : List (Str × List Str)}
    (h : ∀ k, (dlookup dep k).isSome → (dlookup dep' k).isSome) :
    notMemoCount ldb dep' ≤ notMemoCount ldb dep := by
  refine length_filter_mono _ _ ?_ (ldb.map Prod.fst)
  intro k hk
  simp only [Bool.not_eq_true'] at hk ⊢
  cases hs : (dlookup dep k).isSome with
  | false => rfl
  | true => exact absurd (h k hs) (by simp [hk])

theorem notMemoCount_dinsert_lt (ldb : List (Str × LinkAlias))
    {dep : List (Str × List Str)} {k0 : Str} (v : List Str)
    (hmem : k0 ∈ ldb.map Prod.fst) (hnone : dlookup dep k0 = none) :
    notMemoCount ldb (dinsert dep k0 v) < notMemoCount ldb dep := by
  refine length_filter_strict _ _ ?_ hmem (by simp [hnone]) ?_
  · intro k hk
    simp only [Bool.not_eq_true'] at hk ⊢
    cases hs : (dlookup dep k).isSome with
    | false => rfl
    | true => exact absurd (dlookup_isSome_dinsert k0 v hs) (by simp [hk])
  · simp [dlookup_dinsert_self]

theorem deductLibs_cons (ldb : List (Str × LinkAlias))
    (f : List (Str × List Str) → LinkAlias →
      Except PErr (List Str × List (Str × List Str)))
    (tout lib : Str) (libs : List Str) (dep : List (Str × List Str)) :
    deductLibs ldb f tout (lib :: libs) dep =
      match dlookup ldb lib with
      | none => .error (.keyError lib)
      | some t =>
        match f dep t with
        | .error e => .error e
        | .ok (objs, dep') =>
          deductLibs ldb f tout libs
            (dinsert dep' tout ((dlookup dep' tout).getD [] ++ objs)) := by
  rw [deductLibs]

theorem deductLibs_cons_none {ldb : List (Str × LinkAlias)}
    {f : List (Str × List Str) → LinkAlias →
      Except PErr (List Str × List (Str × List Str))}
    {tout lib : Str} {libs : List Str} {dep : List (Str × List Str)}
    (h : dlookup ldb lib = none) :
    deductLibs ldb f tout (lib :: libs) dep = .error (.keyError lib) := by
  rw [deductLibs_cons, h]

theorem deductLibs_cons_some {ldb : List (Str × LinkAlias)}
    {f : List (Str × List Str) → LinkAlias →
      Except PErr (List Str × List (Str × List Str))}
    {tout lib : Str} {libs : List Str} {dep : List (Str × List Str)}
    {t : LinkAlias} (h : dlookup ldb lib = some t) :
    deductLibs ldb f tout (lib :: libs) dep =
      match f dep t with
      | .error e => .error e
      | .ok (objs, dep') =>
        deductLibs ldb f tout libs
          (dinsert dep' tout ((dlookup dep' tout).getD [] ++ objs)) := by
  rw [deductLibs_cons, h]

theorem deductLibs_cons_some_err {ldb : List (Str × LinkAlias)}
    {f : List (Str × List Str) → LinkAlias →
      Except PErr (List Str × List (Str × List Str))}
    {tout lib : Str} {libs : List Str} {dep : List (Str × List Str)}
    {t : LinkAlias} {e : PErr} (h1 : dlookup ldb lib = some t)
    (h2 : f dep t = .error e) :
    deductLibs ldb f tout (lib :: libs) dep = .error e := by
  rw [deductLibs_cons_some h1, h2]

theorem deductLibs_cons_some_ok {ldb : List (Str × LinkAlias)}
    {f : List (Str × List Str) → LinkAlias →
      Except PErr (List Str × List (Str × List Str))}
    {tout lib : Str} {libs : List Str} {dep : List (Str × List Str)}
    {t : LinkAlias} {objs : List Str} {dep1 : List (Str × List Str)}
    (h1 : dlookup ldb lib = some t) (h2 : f dep t = .ok (objs, dep1)) :
    deductLibs ldb f tout (lib :: libs) dep =
      deductLibs ldb f tout libs
        (dinsert dep1 tout ((dlookup dep1 tout).getD [] ++ objs)) := by
  rw [deductLibs_cons_some h1, h2]

theorem deductOne_memo {ldb : List (Str × LinkAlias)} {fuel : Nat}
    {dep : List (Str × List Str)} {target : LinkAlias} {objs : List Str}
    (h : dlookup dep target.output = some objs) :
    deductOneTarget ldb (fuel + 1) dep target = .ok (objs, dep) := by
  rw [deductOneTarget, h]

theorem deductOne_miss {ldb : List (Str × LinkAlias)} {fuel : Nat}
    {dep : List (Str × List Str)} {target : LinkAlias}
    (h : dlookup dep target.output = none) :
    deductOneTarget ldb (fuel + 1) dep target =
      match deductLibs ldb (deductOneTarget ldb fuel) target.output
          target.libraries (dinsert dep target.output target.objects) with
      | .error e => .error e
      | .ok dep' => .ok ((dlookup dep' target.output).getD [], dep') := by
  rw [deductOneTarget, h]

theorem deductLibs_keys (ldb : List (Str × LinkAlias))
    (f : List (Str × List Str) → LinkAlias →
      Except PErr (List Str × List (Str × List Str)))
    (hf : ∀ dep target objs dep', f dep target = .ok (objs, dep') →
      ∀ k, (dlookup dep k).isSome → (dlookup dep' k).isSome)
    (tout : Str) :
    ∀ (libs : List Str) (dep dep' : List (Str × List Str)),
      deductLibs ldb f tout libs dep = .ok dep' →
      ∀ k, (dlookup dep k).isSome → (dlookup dep' k).isSome := by
  intro libs
  induction libs with
  | nil =>
    intro dep dep' h k hk
    cases Except.ok.inj h
    exact hk
  | cons lib libs ih =>
    intro dep dep' h k hk
    cases hlib : dlookup ldb lib with
    | none => rw [deductLibs_cons_none hlib] at h; exact Except.noConfusion h
    | some t =>
      cases hft : f dep t with
      | error e =>
        rw [deductLibs_cons_some_err hlib hft] at h
        exact Except.noConfusion h
      | ok p =>
        obtain ⟨objs, dep1⟩ := p
        rw [deductLibs_cons_some_ok hlib hft] at h
        exact ih _ _ h k
          (dlookup_isSome_dinsert tout _ (hf dep t objs dep1 hft k hk))

theorem deductOne_keys (ldb : List (Str × LinkAlias)) :
    ∀ (fuel : Nat) (dep : List (Str × List Str)) (target : LinkAlias)
      (res : List Str × List (Str × List Str)),
      deductOneTarget ldb fuel dep target = .ok res →
      ∀ k, (dlookup dep k).isSome → (dlookup res.2 k).isSome := by
  intro fuel
  induction fuel with
  | zero => intro dep target res h; exact Except.noConfusion h
  | succ fuel ih =>
    intro dep target res h k hk
    cases hmemo : dlookup dep target.output with
    | some objs =>
      rw [deductOne_memo hmemo] at h
      cases Except.ok.inj h
      exact hk
    | none =>
      rw [deductOne_miss hmemo] at h
      cases hlibs : deductLibs ldb (deductOneTarget ldb fuel) target.output
          target.libraries (dinsert dep target.output target.objects) with
      | error e => rw [hlibs] at h; exact Except.noConfusion h
      | ok dep' =>
        rw [hlibs] at h
        cases Except.ok.inj h
        exact deductLibs_keys ldb _ (fun d t o d' hh => ih d t (o, d') hh) _
          _ _ _ hlibs k (dlookup_isSome_dinsert target.output _ hk)

theorem deductLibs_progress (ldb : List (Str × LinkAlias)) (fuel : Nat)
    (hwf : ∀ kv ∈ ldb, kv.2.output = kv.1)
    (hf : ∀ dep target, target.output ∈ ldb.map Prod.fst →
      notMemoCount ldb dep < fuel →
      (∃ res, deductOneTarget ldb fuel dep target = .ok res) ∨
      (∃ k, deductOneTarget ldb fuel dep target = .error (.keyError k) ∧
        dlookup ldb k = none))
    (tout : Str) :
    ∀ (libs : List Str) (dep : List (Str × List Str)),
      notMemoCount ldb dep < fuel →
      (∃ dep', deductLibs ldb (deductOneTarget ldb fuel) tout libs dep =
        .ok dep') ∨
      (∃ k, deductLibs ldb (deductOneTarget ldb fuel) tout libs dep =
        .error (.keyError k) ∧ dlookup ldb k = none) := by
  intro libs
  induction libs with
  | nil => intro dep hdep; exact Or.inl ⟨dep, rfl⟩
  | cons lib libs ih =>
    intro dep hdep
    cases hlib : dlookup ldb lib with
    | none => exact Or.inr ⟨lib, deductLibs_cons_none hlib, hlib⟩
    | some t =>
      have htout : t.output = lib := hwf (lib, t) (dlookup_mem hlib)
      have htmem : t.output ∈ ldb.map Prod.fst := by
        rw [htout]
        exact List.mem_map_of_mem Prod.fst (dlookup_mem hlib)
      rcases hf dep t htmem hdep with ⟨res, hres⟩ | ⟨k, hres, hk⟩
      · obtain ⟨objs, dep1⟩ := res
        rw [deductLibs_cons_some_ok hlib hres]
        refine ih _ (lt_of_le_of_lt ?_ hdep)
        refine notMemoCount_mono ldb ?_
        intro k0 hk0
        exact dlookup_isSome_dinsert tout _
          (deductOne_keys ldb fuel dep t (objs, dep1) hres k0 hk0)
      · exact Or.inr ⟨k, deductLibs_cons_some_err hlib hres, hk⟩

theorem deductOne_progress (ldb : List (Str × LinkAlias))
    (hwf : ∀ kv ∈ ldb, kv.2.output = kv.1) :
    ∀ (fuel : Nat) (dep : List (Str × List Str)) (target : LinkAlias),
      target.output ∈ ldb.map Prod.fst →
      notMemoCount ldb dep < fuel →
      (∃ res, deductOneTarget ldb fuel dep target = .ok res) ∨
      (∃ k, deductOneTarget ldb fuel dep target = .error (.keyError k) ∧
        dlookup ldb k = none) := by
  intro fuel
  induction fuel with
  | zero => intro dep target hmem hdep; exact absurd hdep (Nat.not_lt_zero _)
  | succ fuel ih =>
    intro dep target hmem hdep
    cases hmemo : dlookup dep target.output with
    | some objs => exact Or.inl ⟨(objs, dep), deductOne_memo hmemo⟩
    | none =>
      have hdep1 : notMemoCount ldb
          (dinsert dep target.output target.objects) < fuel := by
        have hlt := notMemoCount_dinsert_lt ldb target.objects hmem hmemo
        omega
      rcases deductLibs_progress ldb fuel hwf
        (fun d t hm hc => ih d t hm hc) target.output target.libraries
        (dinsert dep target.output target.objects) hdep1 with
        ⟨dep', hres⟩ | ⟨k, hres, hk⟩
      · refine Or.inl ⟨((dlookup dep' target.output).getD [], dep'), ?_⟩
        rw [deductOne_miss hmemo, hres]
      · refine Or.inr ⟨k, ?_, hk⟩
        rw [deductOne_miss hmemo, hres]

theorem notMemoCount_le (ldb : List (Str × LinkAlias))
    (dep : List (Str × List Str)) : notMemoCount ldb dep ≤ ldb.length := by
  unfold notMemoCount
  calc ((ldb.map Prod.fst).filter _).length ≤ (ldb.map Prod.fst).length :=
        List.length_filter_le _ _
    _ = ldb.length := List.length_map _ _

theorem dinsert_forall {κ α : Type} [DecidableEq κ] {P : κ × α → Prop}
    {m : List (κ × α)} {k : κ} {v : α} (hm : ∀ kv ∈ m, P kv)
    (hkv : P (k, v)) : ∀ kv ∈ dinsert m k v, P kv := by
  induction m with
  | nil => intro kv hkv'; rcases List.mem_singleton.mp hkv' with rfl; exact hkv
  | cons hd tl ih =>
    obtain ⟨k0, v0⟩ := hd
    intro kv hkv'
    unfold dinsert at hkv'
    split at hkv'
    · rename_i hk
      subst hk
      rcases List.mem_cons.mp hkv' with rfl | hmem
      · exact hkv
      · exact hm kv (List.mem_cons_of_mem _ hmem)
    · rcases List.mem_cons.mp hkv' with rfl | hmem
      · exact hm (k0, v0) (List.mem_cons_self _ _)
      · exact ih (fun x hx => hm x (List.mem_cons_of_mem _ hx)) kv hmem


theorem parseLDJob_char (acc : List (Str × LinkAlias)) (job : LDJob) :
    parseLDJob acc job = .error (.keyError (str "objects")) ∨
    ∃ objs libs, parseLDJob acc job =
      .ok (dinsert acc (pjoin job.directory job.output)
        ⟨pjoin job.directory job.output, objs, libs⟩) := by
  unfold parseLDJob
  cases ho : job.objects with
  | none => exact Or.inl rfl
  | some l => exact Or.inr ⟨_, _, rfl⟩

/-- Every entry of a `ParseLDList` result is keyed by its own target
output path. -/
theorem parseLDList_wf (jobs : List LDJob) (d : List (Str × LinkAlias))
    (h : parseLDList jobs = .ok (some d)) :
    ∀ kv ∈ d, kv.2.output = kv.1 := by
  unfold parseLDList at h
  split at h
  · exact absurd (Except.ok.inj h) (by simp)
  · have haux : ∀ (js : List LDJob) (acc : List (Str × LinkAlias)),
        (∀ kv ∈ acc, kv.2.output = kv.1) →
        ∀ dd, List.foldlM parseLDJob acc js = .ok dd →
        ∀ kv ∈ dd, kv.2.output = kv.1 := by
      intro js
      induction js with
      | nil =>
        intro acc hacc dd hdd
        cases Except.ok.inj hdd
        exact hacc
      | cons job js ih =>
        intro acc hacc dd hdd
        rw [List.foldlM_cons] at hdd
        rcases parseLDJob_char acc job with hstep | ⟨objs, libs, hstep⟩
        · rw [hstep] at hdd
          exact Except.noConfusion hdd
        · rw [hstep] at hdd
          exact ih _ (dinsert_forall hacc rfl) dd hdd
    cases hx : List.foldlM parseLDJob ([] : List (Str × LinkAlias)) jobs with
    | error e =>
      rw [hx] at h
      exact Except.noConfusion h
    | ok dd0 =>
      rw [hx] at h
      cases Option.some.inj (Except.ok.inj h)
      exact haux jobs [] (fun kv hkv => absurd hkv (List.not_mem_nil kv)) _ hx

/-- C1 (amended): expanding a linking database always terminates — the
memo entry written before the recursion bounds the depth, even on cyclic
databases — but a library reference that is not a key of the linking
database raises `KeyError` (`ldb[lib]`), aborting the whole expansion,
rather than being ignored. First conjunct: with fuel exceeding the number
of targets (which the depth can never reach), the expansion either
completes or stops with a `KeyError` naming a reference absent from the
database. Second conjunct: every database loaded by `ParseLDList`
satisfies the key-is-output premise. -/
theorem claim_C1 :
    (∀ ldb : List (Str × LinkAlias), (∀ kv ∈ ldb, kv.2.output = kv.1) →
      (∃ dep, deductTargets ldb (ldb.length + 1) = .ok dep) ∨
      (∃ k, deductTargets ldb (ldb.length + 1) = .error (.keyError k) ∧
        dlookup ldb k = none)) ∧
    (∀ (jobs : List LDJob) (d : List (Str × LinkAlias)),
      parseLDList jobs = .ok (some d) → ∀ kv ∈ d, kv.2.output = kv.1) := by
  refine ⟨?_, parseLDList_wf⟩
  intro ldb hwf
  have haux : ∀ (entries : List (Str × LinkAlias))
      (dep : List (Str × List Str)), (∀ kv ∈ entries, kv ∈ ldb) →
      (∃ dep', List.foldlM (fun dep kv =>
        (deductOneTarget ldb (ldb.length + 1) dep kv.2).map Prod.snd)
        dep entries = .ok dep') ∨
      (∃ k, List.foldlM (fun dep kv =>
        (deductOneTarget ldb (ldb.length + 1) dep kv.2).map Prod.snd)
        dep entries = .error (.keyError k) ∧ dlookup ldb k = none) := by
    intro entries
    induction entries with
    | nil => intro dep hsub; exact Or.inl ⟨dep, rfl⟩
    | cons kv entries ih =>
      intro dep hsub
      rw [List.foldlM_cons]
      have hmem : kv.2.output ∈ ldb.map Prod.fst := by
        rw [hwf kv (hsub kv (List.mem_cons_self _ _))]
        exact List.mem_map_of_mem Prod.fst (hsub kv (List.mem_cons_self _ _))
      have hcnt : notMemoCount ldb dep < ldb.length + 1 :=
        Nat.lt_succ_of_le (notMemoCount_le ldb dep)
      rcases deductOne_progress ldb hwf (ldb.length + 1) dep kv.2 hmem hcnt
        with ⟨res, hres⟩ | ⟨k, hres, hk⟩
      · rw [hres]
        exact ih res.2 (fun x hx => hsub x (List.mem_cons_of_mem _ hx))
      · rw [hres]
        exact Or.inr ⟨k, rfl, hk⟩
  exact haux ldb [] (fun kv hkv => hkv)

/-- Witness for C1: the two-target cyclic database expands without fuel
exhaustion (the memoization guarantees termination even on a cycle), and
the database parsed from `ldJobsBoth` satisfies the key premise. -/
theorem claim_C1_witness :
    ((∃ dep, deductTargets ldbCyclic (ldbCyclic.length + 1) = .ok dep) ∨
      (∃ k, deductTargets ldbCyclic (ldbCyclic.length + 1) =
        .error (.keyError k) ∧ dlookup ldbCyclic k = none)) ∧
    (∀ kv ∈ [(str "/t/a.out",
        (⟨str "/t/a.out", [str "/t/m.o"], [str "/t/x.a"]⟩ : LinkAlias)),
      (str "/t/x.a", ⟨str "/t/x.a", [str "/t/xa.o"], []⟩),
      (str "/t/y.so", ⟨str "/t/y.so", [str "/t/ys.o"], []⟩)],
      kv.2.output = kv.1) :=
  ⟨claim_C1.1 ldbCyclic (by decide),
   claim_C1.2 ldJobsBoth _ (by decide)⟩

/-- Counterexample to C1 as stated: a single-target database whose only
library reference is not a key makes the expansion raise `KeyError`
(propagated as a fatal error), instead of ignoring the reference. -/
theorem claim_C1_counterexample :
    deductTargets ldbUnknownLib (ldbUnknownLib.length + 1) =
      .error (.keyError (str "/t/missing.a")) := by
  decide


/-- C5 (code bug): the claim says both archive and shared-library
dependencies of a target are followed, including when a target has both.
In `ParseLDList` the expression
`job['archives'] if 'archives' in job else [] + job['shareds'] ...`
binds `[] +` to the else branch only (conditional-expression precedence),
so a target carrying BOTH lists keeps only its archives. On `ldJobsBoth`,
target `a.out` lists archive `x.a` and shared library `y.so` — both known
targets — yet its parsed `libraries` field is `["/t/x.a"]` alone, and its
expanded dependency set `["/t/m.o", "/t/xa.o"]` omits `y.so`'s object
`/t/ys.o`. -/
theorem claim_C5 :
    (ldJobsBoth.head?.map (fun j => (j.archives, j.shareds)) =
      some (some [str "x.a"], some [str "y.so"])) ∧
    (parseLDList ldJobsBoth).map (Option.map (fun d =>
      ((dlookup d (str "/t/a.out")).map LinkAlias.libraries,
        (deductTargets d (d.length + 1)).map
          (fun dep => dlookup dep (str "/t/a.out"))))) =
      .ok (some (some [str "/t/x.a"],
        .ok (some [str "/t/m.o", str "/t/xa.o"]))) ∧
    str "/t/y.so" ∉ [str "/t/x.a"] ∧
    str "/t/ys.o" ∉ [str "/t/m.o", str "/t/xa.o"] := by
  decide

/-! ## Helper lemmas: dict keys under `dinsert` -/

theorem dinsert_keys {κ α : Type} [DecidableEq κ] (m : List (κ × α)) (k : κ)
    (v : α) (a : κ) :
    a ∈ (dinsert m k v).map Prod.fst ↔ a ∈ m.map Prod.fst ∨ a = k := by
  induction m with
  | nil => simp [dinsert]
  | cons kv rest ih =>
    obtain ⟨k0, v0⟩ := kv
    rw [dinsert]
    split
    · rename_i hk
      subst hk
      constructor
      · intro h; exact Or.inl h
      · intro h
        rcases h with h | rfl
        · exact h
        · simp
    · rename_i hk
      simp only [List.map_cons, List.mem_cons, ih]
      constructor
      · rintro (rfl | h | rfl)
        · exact Or.inl (Or.inl rfl)
        · exact Or.inl (Or.inr h)
        · exact Or.inr rfl
      · rintro ((rfl | h) | rfl)
        · exact Or.inl rfl
        · exact Or.inr (Or.inl h)
        · exact Or.inr (Or.inr rfl)

theorem dinsert_keys_nodup {κ α : Type} [DecidableEq κ] (m : List (κ × α))
    (k : κ) (v : α) (h : (m.map Prod.fst).Nodup) :
    ((dinsert m k v).map Prod.fst).Nodup := by
  induction m with
  | nil => simp [dinsert]
  | cons kv rest ih =>
    obtain ⟨k0, v0⟩ := kv
    rw [List.map_cons, List.nodup_cons] at h
    rw [dinsert]
    split
    · rename_i hk
      subst hk
      rw [List.map_cons, List.nodup_cons]
      exact h
    · rename_i hk
      rw [List.map_cons, List.nodup_cons]
      refine ⟨?_, ih h.2⟩
      intro hmem
      rcases (dinsert_keys rest k v k0).1 hmem with h1 | rfl
      · exact h.1 h1
      · exact hk rfl

/-- Each `ParseCDList` step either fails or stores the classified command
into the accumulated dict keyed by its own output path. -/
theorem parseCDJob_shape (cc cxx : Str) (fs : Str → Bool)
    (acc : List (Str × JsonCompilingCmd)) (job : CDJob) :
    (∃ e, parseCDJob cc cxx fs acc job = .error e) ∨
    (∃ p, parseCDJob cc cxx fs acc job = .ok (dinsert acc p.output p)) := by
  simp only [parseCDJob]
  cases h1 : ccJsonMatchArguments cc cxx fs
      { job with file := pjoin job.directory job.file } with
  | error e => exact Or.inl ⟨e, rfl⟩
  | ok parsed =>
    cases parsed with
    | none => exact Or.inl ⟨.attributeError, rfl⟩
    | some p =>
      cases h2 : reformatInputFile id (pjoin job.directory job.file)
          p.arguments p.files (str "-c" ∈ p.arguments) with
      | error e =>
        refine Or.inl ⟨e, ?_⟩
        simp only []
        rw [h2]
      | ok args =>
        refine Or.inr ⟨{ p with arguments := args }, ?_⟩
        simp only []
        rw [h2]

/-- C9 (amended): in the database re-parsed by `ParseCDList` for artifact
regeneration, output paths are unique — the dict is keyed by output path,
so a later entry with the same output silently replaces the earlier one.
At construction time (`ConstructCompilationDatabase`) the invariant does
NOT hold: two commands writing the same output path yield two entries with
identical outputs (see the accompanying counterexample). -/
theorem claim_C9 (cc cxx : Str) (fs : Str → Bool) (jobs : List CDJob)
    (d : List (Str × JsonCompilingCmd))
    (h : parseCDList cc cxx fs jobs = .ok (some d)) :
    (d.map (fun kv => kv.2.output)).Nodup := by
  unfold parseCDList at h
  split at h
  · exact absurd (Except.ok.inj h) (by simp)
  · have haux : ∀ (js : List CDJob) (acc : List (Str × JsonCompilingCmd)),
        (acc.map Prod.fst).Nodup → (∀ kv ∈ acc, kv.2.output = kv.1) →
        ∀ dd, List.foldlM (parseCDJob cc cxx fs) acc js = .ok dd →
        (dd.map Prod.fst).Nodup ∧ ∀ kv ∈ dd, kv.2.output = kv.1 := by
      intro js
      induction js with
      | nil =>
        intro acc hacc hout dd hdd
        cases Except.ok.inj hdd
        exact ⟨hacc, hout⟩
      | cons job js ih =>
        intro acc hacc hout dd hdd
        rw [List.foldlM_cons] at hdd
        rcases parseCDJob_shape cc cxx fs acc job with ⟨e, hstep⟩ | ⟨p, hstep⟩
        · rw [hstep] at hdd
          exact Except.noConfusion hdd
        · rw [hstep] at hdd
          exact ih _ (dinsert_keys_nodup acc p.output p hacc)
            (dinsert_forall hout rfl) dd hdd
    cases hx : List.foldlM (parseCDJob cc cxx fs)
        ([] : List (Str × JsonCompilingCmd)) jobs with
    | error e =>
      rw [hx] at h
      exact Except.noConfusion h
    | ok dd0 =>
      rw [hx] at h
      cases Option.some.inj (Except.ok.inj h)
      obtain ⟨hnd, hkey⟩ := haux jobs []
        (by simp) (fun kv hkv => absurd hkv (List.not_mem_nil kv)) _ hx
      rw [List.map_congr_left (fun kv hkv => hkey kv hkv)]
      exact hnd

/-- Witness for C9: re-parsing the two same-source jobs gives the dict
`dC9`, whose entries carry pairwise distinct output paths. -/
theorem claim_C9_witness : (dC9.map (fun kv => kv.2.output)).Nodup :=
  claim_C9 (str "cc") (str "c++") fsAC jobsSameSource dC9 (by decide)

/-- Counterexample to C9 as stated: compiling two different sources to the
same output path makes `ConstructCompilationDatabase` emit two entries
with identical output `/w/x.o` and distinct source files — output paths
are not unique across the emitted compilation database. -/
theorem claim_C9_counterexample :
    (handleCompileCommands fsDup recDup).map (fun r =>
      r.1.map (fun e => (e.output, e.file))) =
      .ok [(.vstr (str "/w/x.o"), str "/w/a.c"),
        (.vstr (str "/w/x.o"), str "/w/b.c")] ∧
    str "/w/a.c" ≠ str "/w/b.c" := by
  decide

/-! ## Helper lemmas: the alias-resolution closed form -/

theorem dinsert_not_mem {κ α : Type} [DecidableEq κ] {m : List (κ × α)}
    {k : κ} (v : α) (h : k ∉ m.map Prod.fst) :
    dinsert m k v = m ++ [(k, v)] := by
  induction m with
  | nil => rfl
  | cons kv rest ih =>
    obtain ⟨k0, v0⟩ := kv
    rw [List.map_cons, List.mem_cons, not_or] at h
    rw [dinsert, if_neg (fun he => h.1 he.symm), ih h.2, List.cons_append]

theorem dinsert_append_not_mem {κ α : Type} [DecidableEq κ] {m1 : List (κ × α)}
    (m2 : List (κ × α)) {k : κ} (v : α) (h : k ∉ m1.map Prod.fst) :
    dinsert (m1 ++ m2) k v = m1 ++ dinsert m2 k v := by
  induction m1 with
  | nil => rfl
  | cons kv rest ih =>
    obtain ⟨k0, v0⟩ := kv
    rw [List.map_cons, List.mem_cons, not_or] at h
    rw [List.cons_append, dinsert, if_neg (fun he => h.1 he.symm), ih h.2,
      List.cons_append]

theorem dlookup_map_self {f : Str → RVal} {ds : List Str} {o : Str}
    (h : o ∈ ds) :
    dlookup (ds.map fun o => (some o, f o)) (some o) = some (f o) := by
  induction ds with
  | nil => exact absurd h (List.not_mem_nil o)
  | cons d rest ih =>
    rw [List.map_cons, dlookup]
    by_cases hd : d = o
    · subst hd
      rw [if_pos rfl]
    · rw [if_neg (fun he => hd (Option.some.inj he))]
      exact ih ((List.mem_cons.mp h).resolve_left (fun he => hd he.symm))

theorem simpInner_objects (s : Str) (ad : AliasMap) (ds : List Str)
    (had : dlookup ad (some s) = some (.vlist ds))
    (hobj : ∀ o ∈ ds, objectFilterB o = true)
    (hne : ∀ o ∈ ds, o ≠ s) :
    ∀ (fuel k : Nat) (ret : AliasMap) (acc : List Str),
      ds.length - k < fuel →
      dlookup ret (some s) = some (.vlist acc) →
      simpInner s k fuel ad ret = .ok (ad, simpFold s (ds.drop k) ret acc) := by
  intro fuel
  induction fuel with
  | zero => intro k ret acc hf; exact absurd hf (Nat.not_lt_zero _)
  | succ fuel ih =>
    intro k ret acc hf hret
    rw [simpInner]
    have hiter : iterGet ad s k = ds.get? k := by
      rw [iterGet, had]
    rw [hiter]
    by_cases hk : k < ds.length
    · have hgk : ds.get? k = some (ds.get ⟨k, hk⟩) := List.get?_eq_get hk
      rw [hgk]
      have hmem : ds.get ⟨k, hk⟩ ∈ ds := List.get_mem ds k hk
      simp only [hobj _ hmem, if_true]
      have hpair : (if List.take 5 (ds.get ⟨k, hk⟩) = str "/tmp/" then
          (s ++ '.' :: pbasename (ds.get ⟨k, hk⟩),
            dinsert ret (some (ds.get ⟨k, hk⟩))
              (RVal.vstr (s ++ '.' :: pbasename (ds.get ⟨k, hk⟩))))
          else (ds.get ⟨k, hk⟩,
            dinsert ret (some (ds.get ⟨k, hk⟩))
              (RVal.vstr (ds.get ⟨k, hk⟩)))) =
          (gRew s (ds.get ⟨k, hk⟩), dinsert ret (some (ds.get ⟨k, hk⟩))
            (.vstr (gRew s (ds.get ⟨k, hk⟩)))) := by
        unfold gRew
        split <;> rename_i h <;> simp [h]
      rw [hpair]
      simp only []
      have hlk : dlookup (dinsert ret (some (ds.get ⟨k, hk⟩))
          (RVal.vstr (gRew s (ds.get ⟨k, hk⟩)))) (some s) =
          some (.vlist acc) := by
        rw [dlookup_dinsert_other, hret]
        exact fun he => hne _ hmem (Option.some.inj he).symm
      rw [hlk]
      simp only []
      have hfin : ds.length - (k + 1) < fuel := by omega
      rw [ih (k + 1) _ (acc ++ [gRew s (ds.get ⟨k, hk⟩)]) hfin
        (dlookup_dinsert_self _ _ _)]
      have hdrop : List.drop k ds = ds.get ⟨k, hk⟩ :: List.drop (k + 1) ds :=
        (List.get_cons_drop ds ⟨k, hk⟩).symm
      rw [hdrop, simpFold]
    · have hgk : ds.get? k = none := List.get?_eq_none.mpr (Nat.le_of_not_lt hk)
      rw [hgk]
      rw [List.drop_eq_nil_of_le (Nat.le_of_not_lt hk), simpFold]

theorem simpFold_closed (s : Str) :
    ∀ (ds done acc : List Str),
      ds.Nodup → (∀ o ∈ ds, o ≠ s) → (∀ o ∈ ds, o ∉ done) →
      simpFold s ds
        ((some s, .vlist acc) ::
          done.map (fun o => (some o, .vstr (gRew s o)))) acc =
      (some s, .vlist (acc ++ ds.map (gRew s))) ::
        (done ++ ds).map (fun o => (some o, .vstr (gRew s o))) := by
  intro ds
  induction ds with
  | nil =>
    intro done acc _ _ _
    rw [simpFold]
    simp
  | cons o os ih =>
    intro done acc hnd hne hdj
    rw [simpFold]
    have h1 : dinsert ((some s, RVal.vlist acc) ::
        done.map (fun o => (some o, RVal.vstr (gRew s o)))) (some o)
        (RVal.vstr (gRew s o)) =
        (some s, RVal.vlist acc) ::
          (done ++ [o]).map (fun o => (some o, RVal.vstr (gRew s o))) := by
      rw [dinsert_not_mem]
      · simp
      · simp only [List.map_cons, List.mem_cons]
        rintro (hs | hmem)
        · exact hne o (List.mem_cons_self o os) (Option.some.inj hs)
        · rw [List.map_map] at hmem
          rcases List.mem_map.mp hmem with ⟨x, hx, he⟩
          cases Option.some.inj he
          exact hdj o (List.mem_cons_self o os) hx
    rw [h1]
    have h2 : dinsert ((some s, RVal.vlist acc) ::
        (done ++ [o]).map (fun o => (some o, RVal.vstr (gRew s o)))) (some s)
        (RVal.vlist (acc ++ [gRew s o])) =
        (some s, RVal.vlist (acc ++ [gRew s o])) ::
          (done ++ [o]).map (fun o => (some o, RVal.vstr (gRew s o))) := by
      rw [dinsert, if_pos rfl]
    rw [h2]
    rw [ih (done ++ [o]) (acc ++ [gRew s o]) (List.Nodup.of_cons hnd)
      (fun x hx => hne x (List.mem_cons_of_mem o hx))
      (fun x hx hmem => by
        rcases List.mem_append.mp hmem with hd | hsing
        · exact hdj x (List.mem_cons_of_mem o hx) hd
        · rcases List.mem_singleton.mp hsing with rfl
          exact (List.nodup_cons.mp hnd).1 hx)]
    simp

theorem simplifyAlias_single (s : Str) (ds : List Str)
    (hsrc : sourceFilterB s = true)
    (hobj : ∀ o ∈ ds, objectFilterB o = true)
    (hne : ∀ o ∈ ds, o ≠ s) (hnd : ds.Nodup) :
    simplifyAlias [(some s, .vlist ds)] =
      .ok ((some s, .vlist (ds.map (gRew s))) ::
        ds.map (fun o => (some o, .vstr (gRew s o))),
        [(some s, .vlist ds)]) := by
  have hlook : dlookup [(some s, RVal.vlist ds)] (some s) =
      some (.vlist ds) := by
    rw [dlookup, if_pos rfl]
  have hfuel : innerFuel [(some s, RVal.vlist ds)] s = ds.length + 1 := by
    rw [innerFuel, hlook]
  have hinner : simpInner s 0 (innerFuel [(some s, RVal.vlist ds)] s)
      [(some s, RVal.vlist ds)] (dinsert [] (some s) (.vlist [])) =
      .ok ([(some s, RVal.vlist ds)],
        simpFold s ds [(some s, .vlist [])] []) := by
    rw [hfuel]
    have hd := simpInner_objects s [(some s, RVal.vlist ds)] ds hlook hobj hne
      (ds.length + 1) 0 [(some s, .vlist [])] [] (by omega)
      (by rw [dlookup, if_pos rfl])
    rw [List.drop_zero] at hd
    exact hd
  have houter : simpOuter [some s] [(some s, RVal.vlist ds)] [] =
      .ok ([(some s, RVal.vlist ds)],
        simpFold s ds [(some s, .vlist [])] []) := by
    rw [simpOuter, if_pos hsrc, hinner]
    rfl
  have hfold : simpFold s ds [(some s, RVal.vlist [])] [] =
      (some s, .vlist (ds.map (gRew s))) ::
        ds.map (fun o => (some o, .vstr (gRew s o))) := by
    have hc := simpFold_closed s ds [] [] hnd hne
      (fun o _ h => absurd h (List.not_mem_nil o))
    simpa using hc
  have hmat : materialize [(some s, RVal.vlist ds)]
      ((some s, RVal.vlist (ds.map (gRew s))) ::
        ds.map (fun o => (some o, RVal.vstr (gRew s o)))) =
      (some s, RVal.vlist (ds.map (gRew s))) ::
        ds.map (fun o => (some o, RVal.vstr (gRew s o))) := by
    rw [materialize, List.map_cons, List.map_map]
    rfl
  rw [simplifyAlias]
  simp only [List.map_cons, List.map_nil]
  rw [houter, hfold]
  simp only []
  rw [hmat]

theorem simpOuter_vrefs : ∀ (ks : List Str) (ad ret : AliasMap),
    (∀ o ∈ ks, sourceFilterB o = false) → (∀ o ∈ ks, asmFilterB o = false) →
    simpOuter (ks.map some) ad ret =
      .ok (ad, ks.foldl (fun r o => dinsert r (some o) (.vref (some o))) ret) := by
  intro ks
  induction ks with
  | nil =>
    intro ad ret _ _
    rw [List.map_nil, simpOuter, List.foldl_nil]
  | cons o os ih =>
    intro ad ret hns hna
    rw [List.map_cons, simpOuter,
      if_neg (fun hc =>
        Bool.false_ne_true ((hns o (List.mem_cons_self o os)).symm.trans hc)),
      if_neg (fun hc =>
        Bool.false_ne_true ((hna o (List.mem_cons_self o os)).symm.trans hc)),
      List.foldl_cons]
    exact ih ad _ (fun x hx => hns x (List.mem_cons_of_mem o hx))
      (fun x hx => hna x (List.mem_cons_of_mem o hx))

theorem vref_fold : ∀ (ds : List Str) (front : AliasMap),
    ds.Nodup → (∀ o ∈ ds, (some o) ∉ front.map Prod.fst) →
    ds.foldl (fun r o => dinsert r (some o) (.vref (some o)))
      (front ++ ds.map (fun o => (some o, .vstr o))) =
      front ++ ds.map (fun o => (some o, .vref (some o))) := by
  intro ds
  induction ds with
  | nil => intro front _ _; simp
  | cons o os ih =>
    intro front hnd hout
    rw [List.foldl_cons, List.map_cons]
    have h1 : dinsert (front ++ (some o, RVal.vstr o) ::
        os.map (fun o => (some o, RVal.vstr o))) (some o)
        (RVal.vref (some o)) =
        (front ++ [(some o, RVal.vref (some o))]) ++
          os.map (fun o => (some o, RVal.vstr o)) := by
      rw [dinsert_append_not_mem _ _ (hout o (List.mem_cons_self o os)),
        dinsert, if_pos rfl]
      simp
    rw [h1, ih (front ++ [(some o, RVal.vref (some o))])
      (List.Nodup.of_cons hnd)
      (fun x hx hmem => by
        rw [List.map_append] at hmem
        rcases List.mem_append.mp hmem with hf | hsing
        · exact hout x (List.mem_cons_of_mem o hx) hf
        · rcases List.mem_singleton.mp hsing with he
          exact (List.nodup_cons.mp hnd).1
            ((Option.some.inj he) ▸ hx))]
    simp

/-- C3: in alias simplification, every destination under `/tmp/` is
rewritten to the originating source path, a dot and the temp path's base
name, and that rewritten name also becomes the temp path's own mapped
value (general conjunct, via the closed form of the resolution loop); and
end-to-end scenario B — `clang foo.c -o foo`, an internal stage renaming
`foo.c` to `/tmp/xyz.o`, a link step consuming `/tmp/xyz.o` — yields the
compile output `/w/foo.c.xyz.o` and a link command for `/w/foo` whose
object list holds that same stable name. -/
theorem claim_C3 :
    (∀ s ds, sourceFilterB s = true → (∀ o ∈ ds, objectFilterB o = true) →
      (∀ o ∈ ds, o ≠ s) → ds.Nodup →
      ∃ r ad', simplifyAlias [(some s, .vlist ds)] = .ok (r, ad') ∧
        dlookup r (some s) = some (.vlist (ds.map (gRew s))) ∧
        (∀ o ∈ ds, dlookup r (some o) = some (.vstr (gRew s o)) ∧
          (o.take 5 = str "/tmp/" →
            gRew s o = s ++ '.' :: pbasename o))) ∧
    (handleCompileCommands fsScenB recScenB).map (fun r =>
      (r.1.map (fun e => (e.output, e.file)),
       r.2.1.map (fun e => (e.output, e.objects)))) =
      .ok ([(.vstr (str "/w/foo.c.xyz.o"), str "/w/foo.c")],
        [(some (str "/w/foo"), some [RVal.vstr (str "/w/foo.c.xyz.o")])]) := by
  constructor
  · intro s ds hsrc hobj hne hnd
    refine ⟨_, _, simplifyAlias_single s ds hsrc hobj hne hnd, ?_, ?_⟩
    · rw [dlookup, if_pos rfl]
    · intro o ho
      refine ⟨?_, fun htmp => by rw [gRew, if_pos htmp]⟩
      rw [dlookup, if_neg (fun he => hne o ho (Option.some.inj he).symm)]
      exact dlookup_map_self ho
  · decide


/-- Witness for C3: the general conjunct applied to the source
`/w/foo.c` with the single temp destination `/tmp/xyz.o`. -/
theorem claim_C3_witness :
    ∃ r ad',
      simplifyAlias [(some (str "/w/foo.c"), .vlist [str "/tmp/xyz.o"])] =
        .ok (r, ad') ∧
      dlookup r (some (str "/w/foo.c")) =
        some (.vlist ([str "/tmp/xyz.o"].map (gRew (str "/w/foo.c")))) ∧
      (∀ o ∈ [str "/tmp/xyz.o"], dlookup r (some o) =
        some (.vstr (gRew (str "/w/foo.c") o)) ∧
        (o.take 5 = str "/tmp/" →
          gRew (str "/w/foo.c") o = str "/w/foo.c" ++ '.' :: pbasename o)) :=
  claim_C3.1 (str "/w/foo.c") [str "/tmp/xyz.o"] (by decide) (by decide)
    (by decide) (by decide)

/-- C4 (amended): alias simplification is idempotent on a single-source
edge map whose destinations are plain object files NOT under `/tmp/`: the
second application reproduces the first result exactly. Idempotence FAILS
in general: a destination under `/tmp/` is rewritten again on the second
run (see the accompanying counterexample). -/
theorem claim_C4 (s : Str) (ds : List Str)
    (hsrc : sourceFilterB s = true)
    (hobj : ∀ o ∈ ds, objectFilterB o = true)
    (hnsrc : ∀ o ∈ ds, sourceFilterB o = false)
    (hnasm : ∀ o ∈ ds, asmFilterB o = false)
    (htmp : ∀ o ∈ ds, ¬ o.take 5 = str "/tmp/")
    (hne : ∀ o ∈ ds, o ≠ s) (hnd : ds.Nodup) :
    ∃ r, simplifyAlias [(some s, .vlist ds)] =
        .ok (r, [(some s, .vlist ds)]) ∧
      simplifyAlias r = .ok (r, r) := by
  have hg : ∀ o ∈ ds, gRew s o = o := fun o ho => by
    rw [gRew, if_neg (htmp o ho)]
  have hmapg : ds.map (gRew s) = ds :=
    (List.map_congr_left hg).trans (List.map_id ds)
  have hmapf : ds.map (fun o => ((some o : Option Str), RVal.vstr (gRew s o))) =
      ds.map (fun o => (some o, RVal.vstr o)) :=
    List.map_congr_left (fun o ho => by rw [hg o ho])
  refine ⟨(some s, .vlist ds) :: ds.map (fun o => (some o, .vstr o)), ?_, ?_⟩
  · have h1 := simplifyAlias_single s ds hsrc hobj hne hnd
    rw [hmapg, hmapf] at h1
    exact h1
  · -- second application
    set r : AliasMap :=
      (some s, RVal.vlist ds) :: ds.map (fun o => (some o, RVal.vstr o)) with hr
    have hlookr : dlookup r (some s) = some (.vlist ds) := by
      rw [hr, dlookup, if_pos rfl]
    have hfuelr : innerFuel r s = ds.length + 1 := by
      rw [innerFuel, hlookr]
    have hinner2 : simpInner s 0 (innerFuel r s) r
        (dinsert [] (some s) (.vlist [])) =
        .ok (r, simpFold s ds [(some s, .vlist [])] []) := by
      rw [hfuelr]
      have hd := simpInner_objects s r ds hlookr hobj hne
        (ds.length + 1) 0 [(some s, .vlist [])] [] (by omega)
        (by rw [dlookup, if_pos rfl])
      rw [List.drop_zero] at hd
      exact hd
    have hfold2 : simpFold s ds [(some s, RVal.vlist [])] [] = r := by
      have hc := simpFold_closed s ds [] [] hnd hne
        (fun o _ h => absurd h (List.not_mem_nil o))
      simp only [List.map_nil, List.nil_append, List.append_nil] at hc
      rw [hc, hmapg, hmapf, hr]
    have hvfold : ds.foldl (fun r o => dinsert r (some o) (.vref (some o))) r =
        (some s, RVal.vlist ds) ::
          ds.map (fun o => (some o, .vref (some o))) := by
      have hv := vref_fold ds [(some s, RVal.vlist ds)] hnd
        (fun o ho hmem => by
          rcases List.mem_singleton.mp hmem with he
          exact hne o ho (Option.some.inj he))
      rw [List.singleton_append, List.singleton_append] at hv
      rw [hr]
      exact hv
    have houter2 : simpOuter (some s :: ds.map some) r [] =
        .ok (r, (some s, RVal.vlist ds) ::
          ds.map (fun o => (some o, .vref (some o)))) := by
      rw [simpOuter, if_pos hsrc, hinner2, hfold2]
      have hso := simpOuter_vrefs ds r r hnsrc hnasm
      rw [hvfold] at hso
      exact hso
    have hlooko : ∀ o ∈ ds, dlookup r (some o) = some (.vstr o) := by
      intro o ho
      rw [hr, dlookup, if_neg (fun he => hne o ho (Option.some.inj he).symm)]
      exact dlookup_map_self ho
    have hmat2 : materialize r ((some s, RVal.vlist ds) ::
        ds.map (fun o => (some o, RVal.vref (some o)))) = r := by
      rw [materialize, List.map_cons, List.map_map, hr]
      refine congrArg₂ List.cons rfl ?_
      refine List.map_congr_left ?_
      intro o ho
      show ((some o : Option Str),
        (dlookup r (some o)).getD (RVal.vlist [])) = (some o, RVal.vstr o)
      rw [hlooko o ho]
      rfl
    have hkeys : r.map Prod.fst = some s :: ds.map some := by
      rw [hr, List.map_cons, List.map_map]
      rfl
    rw [simplifyAlias, hkeys, houter2]
    simp only []
    rw [hmat2]

/-- Witness for C4: a source compiled to a single object outside `/tmp`
reaches the idempotence fixed point after one application. -/
theorem claim_C4_witness :
    ∃ r, simplifyAlias [(some (str "/w/a.c"), .vlist [str "/w/x.o"])] =
        .ok (r, [(some (str "/w/a.c"), .vlist [str "/w/x.o"])]) ∧
      simplifyAlias r = .ok (r, r) :=
  claim_C4 (str "/w/a.c") [str "/w/x.o"] (by decide) (by decide) (by decide)
    (by decide) (by decide) (by decide) (by decide)

/-- Counterexample to C4 as stated: on an edge map whose source itself
lives under `/tmp`, the first simplification rewrites `/tmp/x.o` to
`/tmp/foo.c.x.o` — still under `/tmp` — so the second application rewrites
it again and the two results differ: alias resolution is not idempotent in
general. -/
theorem claim_C4_counterexample :
    (simplifyAlias adTmpSrc).map Prod.fst =
      .ok [(some (str "/tmp/foo.c"), .vlist [str "/tmp/foo.c.x.o"]),
        (some (str "/tmp/x.o"), .vstr (str "/tmp/foo.c.x.o"))] ∧
    ((simplifyAlias adTmpSrc).map Prod.fst).bind (fun r1 =>
      (simplifyAlias r1).map Prod.fst) =
      .ok [(some (str "/tmp/foo.c"), .vlist [str "/tmp/foo.c.foo.c.x.o"]),
        (some (str "/tmp/foo.c.x.o"), .vstr (str "/tmp/foo.c.foo.c.x.o")),
        (some (str "/tmp/x.o"), .vstr (str "/tmp/foo.c.x.o"))] ∧
    ([(some (str "/tmp/foo.c"), RVal.vlist [str "/tmp/foo.c.x.o"]),
        (some (str "/tmp/x.o"), RVal.vstr (str "/tmp/foo.c.x.o"))] :
      AliasMap) ≠
      [(some (str "/tmp/foo.c"), .vlist [str "/tmp/foo.c.foo.c.x.o"]),
        (some (str "/tmp/foo.c.x.o"), .vstr (str "/tmp/foo.c.foo.c.x.o")),
        (some (str "/tmp/x.o"), .vstr (str "/tmp/foo.c.x.o"))] := by
  decide

theorem getLast?_append_pair {α : Type} (l : List α) (a b : α) :
    (l ++ [a, b]).getLast? = some b := by
  induction l with
  | nil => rfl
  | cons x t ih =>
    rw [List.cons_append]
    cases ht : t ++ [a, b] with
    | nil => exact absurd ht (by simp)
    | cons y u =>
      rw [List.getLast?_cons_cons, ← ht, ih]

/-- C8 (amended): when a required toolchain executable cannot be executed
(`popen` raises `OSError`), the start-up path prints a diagnostic naming
the tool and the configuration option to fix it and terminates with the
error's `errno` (non-zero whenever the `errno` is), and no jobs are ever
scheduled — for the function-mapping scanner (first conjunct) and for the
compiler (second conjunct). The trace does NOT avoid the filesystem: the
output directory is created before the tool checks run (see the
accompanying counterexample). -/
theorem claim_C8 :
    (∀ (o : OptsSlice) (outputExists : Bool)
      (toolErr : Str → Option (Nat × Str)) (errno : Nat) (msg : Str),
      o.fm = true → toolErr o.cfm = some (errno, msg) →
      Effect.scheduleJobs ∉ startupTrace o outputExists toolErr ∧
      Effect.printErr (missingToolMessage o.cfm (str "--cfm") msg) ∈
        startupTrace o outputExists toolErr ∧
      (startupTrace o outputExists toolErr).getLast? =
        some (.exitWith errno)) ∧
    (∀ (o : OptsSlice) (outputExists : Bool)
      (toolErr : Str → Option (Nat × Str)) (errno : Nat) (msg : Str),
      o.fm = false → (o.ast ∨ o.i ∨ o.ll ∨ o.bc) →
      toolErr o.cc = some (errno, msg) →
      Effect.scheduleJobs ∉ startupTrace o outputExists toolErr ∧
      Effect.printErr (missingToolMessage o.cc (str "--cc") msg) ∈
        startupTrace o outputExists toolErr ∧
      (startupTrace o outputExists toolErr).getLast? =
        some (.exitWith errno)) := by
  constructor
  · intro o outputExists toolErr errno msg hfm herr
    have htr : startupTrace o outputExists toolErr =
        (if ¬outputExists ∧ (o.build ∨ o.ast ∨ o.i ∨ o.ll ∨ o.bc ∨ o.fm ∨
            o.ls ∨ o.cp) then [Effect.makeDirs o.output] else []) ++
          [.printErr (missingToolMessage o.cfm (str "--cfm") msg),
           .exitWith errno] := by
      rw [startupTrace, hfm, checkTool, herr]
      simp
    rw [htr]
    refine ⟨?_, ?_, getLast?_append_pair _ _ _⟩
    · intro hmem
      rcases List.mem_append.mp hmem with hmk | hp
      · split at hmk <;> simp at hmk
      · simp at hp
    · simp
  · intro o outputExists toolErr errno msg hfm hopts herr
    have htr : startupTrace o outputExists toolErr =
        (if ¬outputExists ∧ (o.build ∨ o.ast ∨ o.i ∨ o.ll ∨ o.bc ∨ o.fm ∨
            o.ls ∨ o.cp) then [Effect.makeDirs o.output] else []) ++
          [.printErr (missingToolMessage o.cc (str "--cc") msg),
           .exitWith errno] := by
      simp [startupTrace, hfm, checkTool, herr, hopts]
    rw [htr]
    refine ⟨?_, ?_, getLast?_append_pair _ _ _⟩
    · intro hmem
      rcases List.mem_append.mp hmem with hmk | hp
      · split at hmk <;> simp at hmk
      · simp at hp
    · simp

/-- Witness for C8: both conjuncts at concrete inputs — an `--fm` run with
a failing scanner, and an `--ast` run with a failing compiler. -/
theorem claim_C8_witness :
    (Effect.scheduleJobs ∉ startupTrace { optsAstOnly with fm := true }
        true (fun c => if c = str "clang-extdef-mapping" then
          some (8, str "gone") else none) ∧
      Effect.printErr (missingToolMessage
        (str "clang-extdef-mapping") (str "--cfm") (str "gone")) ∈
        startupTrace { optsAstOnly with fm := true } true
          (fun c => if c = str "clang-extdef-mapping" then
            some (8, str "gone") else none) ∧
      (startupTrace { optsAstOnly with fm := true } true
        (fun c => if c = str "clang-extdef-mapping" then
          some (8, str "gone") else none)).getLast? =
        some (.exitWith 8)) ∧
    (Effect.scheduleJobs ∉ startupTrace optsAstOnly false toolErrNoClang ∧
      Effect.printErr (missingToolMessage (str "clang") (str "--cc")
        (str "[Errno 2] No such file")) ∈
        startupTrace optsAstOnly false toolErrNoClang ∧
      (startupTrace optsAstOnly false toolErrNoClang).getLast? =
        some (.exitWith 2)) := by
  constructor
  · have h1 := claim_C8.1 { optsAstOnly with fm := true } true
      (fun c => if c = str "clang-extdef-mapping" then
        some (8, str "gone") else none) 8 (str "gone") (by decide) (by decide)
    exact ⟨h1.1, h1.2.1, h1.2.2⟩
  · exact claim_C8.2 optsAstOnly false toolErrNoClang 2
      (str "[Errno 2] No such file") (by decide) (by decide) (by decide)

/-- Counterexample to C8 as stated: on an `--ast` run with a missing
output directory and an unavailable compiler, the very first effect is the
creation of the output directory — the filesystem is touched before the
diagnostic is printed and the process exits. -/
theorem claim_C8_counterexample :
    startupTrace optsAstOnly false toolErrNoClang =
      [.makeDirs (str "/out"),
       .printErr (missingToolMessage (str "clang") (str "--cc")
         (str "[Errno 2] No such file")),
       .exitWith 2] ∧
    (startupTrace optsAstOnly false toolErrNoClang).head? =
      some (.makeDirs (str "/out")) := by
  decide

/-! ## Helper lemmas: absolute paths, `splitSl` and `normpath` -/

theorem absOf_shift : ∀ (cs : List Str) (a : Str),
    cs.foldl (fun acc c => acc ++ '/' :: c) a = a ++ absOf cs := by
  intro cs
  induction cs with
  | nil => intro a; rw [absOf]; simp
  | cons c cs ih =>
    intro a
    rw [absOf, List.foldl_cons, List.foldl_cons, ih, ih]
    simp

theorem absOf_cons (c : Str) (cs : List Str) :
    absOf (c :: cs) = '/' :: c ++ absOf cs := by
  rw [absOf, List.foldl_cons, absOf_shift]
  simp

theorem absOf_append (xs ys : List Str) :
    absOf (xs ++ ys) = absOf xs ++ absOf ys := by
  induction xs with
  | nil => simp [absOf]
  | cons c cs ih =>
    rw [List.cons_append, absOf_cons, absOf_cons, ih, List.append_assoc]

theorem splitSl_slash (rest : Str) :
    splitSl ('/' :: rest) = [] :: splitSl rest := by
  simp [splitSl]

theorem splitSl_ne_nil (s : Str) : splitSl s ≠ [] := by
  cases s with
  | nil => exact fun h => List.noConfusion h
  | cons c cs =>
    rw [splitSl]
    split
    · exact fun h => List.noConfusion h
    · split
      · exact fun h => List.noConfusion h
      · exact fun h => List.noConfusion h

theorem splitSl_noslash_append (a : Str) (b : Str) (h : '/' ∉ a) :
    splitSl (a ++ b) =
      (a ++ (splitSl b).headD []) :: (splitSl b).tail := by
  induction a with
  | nil =>
    simp only [List.nil_append]
    cases hs : splitSl b with
    | nil => exact absurd hs (splitSl_ne_nil b)
    | cons p ps => simp
  | cons c a ih =>
    rw [List.mem_cons, not_or] at h
    rw [List.cons_append, splitSl, if_neg (fun he => h.1 he.symm), ih h.2]
    simp

theorem splitSl_noslash (a : Str) (h : '/' ∉ a) : splitSl a = [a] := by
  have hb := splitSl_noslash_append a [] h
  simp only [List.append_nil] at hb
  rw [hb]
  simp [splitSl]

theorem splitSl_absOf : ∀ (cs : List Str), (∀ c ∈ cs, '/' ∉ c) →
    ∀ (rest : Str),
    splitSl (absOf cs ++ '/' :: rest) = [] :: (cs ++ splitSl rest) := by
  intro cs
  induction cs with
  | nil =>
    intro _ rest
    rw [absOf]
    simp only [List.foldl_nil, List.nil_append]
    rw [splitSl_slash]
  | cons c cs ih =>
    intro h rest
    have hL : splitSl (absOf (c :: cs) ++ '/' :: rest) =
        [] :: (c :: (cs ++ splitSl rest)) := by
      have hshape : absOf (c :: cs) ++ '/' :: rest =
          '/' :: (c ++ (absOf cs ++ '/' :: rest)) := by
        rw [absOf_cons]
        simp
      rw [hshape, splitSl_slash,
        splitSl_noslash_append c _ (h c (List.mem_cons_self c cs)),
        ih (fun x hx => h x (List.mem_cons_of_mem c hx)) rest]
      simp
    rw [hL]
    simp

theorem getLastD_append {α : Type} (xs : List α) :
    ∀ (ys : List α) (d : α), ys ≠ [] →
    (xs ++ ys).getLastD d = ys.getLastD d := by
  induction xs with
  | nil => intro ys d _; rfl
  | cons x xs ih =>
    intro ys d hys
    rw [List.cons_append, List.getLastD_cons, ih ys x hys]
    cases ys with
    | nil => exact absurd rfl hys
    | cons y ys => rw [List.getLastD_cons, List.getLastD_cons]

theorem getLastD_mem {α : Type} : ∀ (l : List α) (d : α), l ≠ [] →
    l.getLastD d ∈ l := by
  intro l
  induction l with
  | nil => intro d h; exact absurd rfl h
  | cons x xs ih =>
    intro d _
    rw [List.getLastD_cons]
    cases xs with
    | nil => exact List.mem_singleton.mpr rfl
    | cons y ys =>
      exact List.mem_cons_of_mem x (ih x (fun h => List.noConfusion h))

theorem absOf_ne_nil (cs : List Str) (h : cs ≠ []) : absOf cs ≠ [] := by
  cases cs with
  | nil => exact absurd rfl h
  | cons c t =>
    rw [absOf_cons]
    exact fun he => List.noConfusion he

theorem absOf_getLastD (cs : List Str) (h : cs ≠ [])
    (hg : ∀ c ∈ cs, goodComp c) : (absOf cs).getLastD ' ' ≠ '/' := by
  rcases List.eq_nil_or_concat cs with hnil | ⟨ini, c, hcs⟩
  · exact absurd hnil h
  · rw [List.concat_eq_append] at hcs
    subst hcs
    have hgc := hg c (List.mem_append.mpr (Or.inr (List.mem_singleton.mpr rfl)))
    rw [absOf_append, absOf_cons]
    have h1 : absOf [] = ([] : Str) := rfl
    rw [h1, List.append_nil]
    rw [getLastD_append _ _ _ (fun he => List.noConfusion he),
      List.getLastD_cons]
    intro hlast
    exact hgc.2.2.2 (hlast ▸ getLastD_mem c '/' hgc.1)

theorem normStep_nil (acc : List Str) : normStep 1 acc [] = acc := by
  rw [normStep, if_pos (Or.inl rfl)]

theorem normStep_dot (acc : List Str) : normStep 1 acc (str ".") = acc := by
  rw [normStep, if_pos (Or.inr rfl)]

theorem normStep_good (acc : List Str) (c : Str) (h0 : c ≠ [])
    (h1 : c ≠ str ".") (h2 : c ≠ str "..") :
    normStep 1 acc c = acc ++ [c] := by
  rw [normStep, if_neg (not_or.mpr ⟨h0, h1⟩), if_pos (Or.inl h2)]

theorem normStep_fold_good : ∀ (cs : List Str) (acc : List Str),
    (∀ c ∈ cs, c ≠ [] ∧ c ≠ str "." ∧ c ≠ str "..") →
    cs.foldl (normStep 1) acc = acc ++ cs := by
  intro cs
  induction cs with
  | nil => intro acc _; simp
  | cons c cs ih =>
    intro acc h
    have hc := h c (List.mem_cons_self c cs)
    rw [List.foldl_cons, normStep_good acc c hc.1 hc.2.1 hc.2.2,
      ih _ (fun x hx => h x (List.mem_cons_of_mem c hx))]
    simp

theorem intersperse_absOf : ∀ (cs : List Str), cs ≠ [] →
    '/' :: (cs.intersperse (str "/")).flatten = absOf cs := by
  intro cs
  induction cs with
  | nil => intro h; exact absurd rfl h
  | cons c cs ih =>
    intro _
    cases cs with
    | nil =>
      rw [absOf_cons]
      simp only [List.intersperse, List.flatten]
      rfl
    | cons d ds =>
      rw [absOf_cons, ← ih (fun h => List.noConfusion h)]
      simp only [List.intersperse, List.flatten]
      rfl

theorem splitSl_dot_slash (X : Str) :
    splitSl ('.' :: '/' :: X) = str "." :: splitSl X := by
  simp only [splitSl]
  rw [if_neg (by decide)]
  rfl

theorem cat_good (a b : Str) (hg : goodComp a) (hb : '/' ∉ b) :
    goodComp (a ++ b) := by
  obtain ⟨h0, h1, h2, h3⟩ := hg
  refine ⟨fun he => h0 (List.append_eq_nil.mp he).1, ?_, ?_, ?_⟩
  · intro he
    cases a with
    | nil => exact h0 rfl
    | cons x xs =>
      rw [List.cons_append] at he
      cases List.cons.inj he with
      | intro hx ht =>
        cases List.append_eq_nil.mp ht with
        | intro ha hb2 =>
          exact h1 (by rw [ha, hx]; rfl)
  · intro he
    cases a with
    | nil => exact h0 rfl
    | cons x xs =>
      rw [List.cons_append] at he
      cases List.cons.inj he with
      | intro hx ht =>
        cases xs with
        | nil =>
          rw [List.nil_append] at ht
          exact h1 (by rw [hx]; rfl)
        | cons y ys =>
          rw [List.cons_append] at ht
          cases List.cons.inj ht with
          | intro hy ht2 =>
            cases List.append_eq_nil.mp ht2 with
            | intro ha hb2 =>
              exact h2 (by rw [ha, hx, hy]; rfl)
  · intro hmem
    rcases List.mem_append.mp hmem with hma | hmb
    · exact h3 hma
    · exact hb hmb

theorem absOf_single (c : Str) : absOf [c] = '/' :: c := by
  rw [absOf_cons, absOf]
  simp

theorem pnormpath_clean (ch : Char) (tl : Str) (hch : ch ≠ '/')
    (newComps : List Str)
    (hfold : (splitSl ('/' :: ch :: tl)).foldl (normStep 1) [] = newComps) :
    pnormpath ('/' :: ch :: tl) =
      '/' :: (newComps.intersperse (str "/")).flatten := by
  rw [pnormpath, if_neg (fun h => List.noConfusion h)]
  have ht1 : List.take 1 ('/' :: ch :: tl) = str "/" := rfl
  have ht2 : List.take 2 ('/' :: ch :: tl) ≠ str "//" := by
    intro h
    exact hch (List.cons.inj (List.cons.inj h).2).1
  have hinit : (if List.take 1 ('/' :: ch :: tl) = str "/" then
      if List.take 2 ('/' :: ch :: tl) = str "//" ∧
          List.take 3 ('/' :: ch :: tl) ≠ str "///" then 2 else 1
      else 0) = 1 := by
    rw [if_pos ht1, if_neg (fun hc => ht2 hc.1)]
  simp only [hinit, hfold]
  rw [if_neg (by
    intro h
    rw [show List.replicate 1 '/' = ['/'] from rfl] at h
    exact List.noConfusion h)]
  rfl

/-- C6 (amended): each scheduled artifact's destination path is a
deterministic function of the entry's ORIGIN OUTPUT path (not of the
translation unit's source path): for an absolute output directory and an
absolute origin output path built from plain components, the destination
is the output directory, `/preprocess-root`, the origin output path and
the kind-specific suffix, concatenated. Keying on the output rather than
the source refutes the per-translation-unit idempotence the claim states
(see the accompanying counterexample). -/
theorem claim_C6 (oc uc : List Str) (suf : Str)
    (hoc : oc ≠ []) (hocg : ∀ c ∈ oc, goodComp c)
    (huc : uc ≠ []) (hucg : ∀ c ∈ uc, goodComp c)
    (hsuf : '/' ∉ suf) :
    getPreprocessOutputName (absOf oc) (absOf uc) suf =
      absOf oc ++ str "/preprocess-root" ++ absOf uc ++ suf := by
  rcases List.eq_nil_or_concat uc with hnil | ⟨ui, ul, huc2⟩
  · exact absurd hnil huc
  rw [List.concat_eq_append] at huc2
  subst huc2
  obtain ⟨c1, oc', rfl⟩ : ∃ c t, oc = c :: t := by
    cases oc with
    | nil => exact absurd rfl hoc
    | cons c t => exact ⟨c, t, rfl⟩
  obtain ⟨ch, c1t, rfl⟩ : ∃ x xs, c1 = x :: xs := by
    cases c1 with
    | nil => exact absurd rfl (hocg [] (List.mem_cons_self _ _)).1
    | cons x xs => exact ⟨x, xs, rfl⟩
  have hch : ch ≠ '/' := fun he => by
    refine (hocg (ch :: c1t) (List.mem_cons_self _ _)).2.2.2 ?_
    rw [← he]
    exact List.mem_cons_self ch c1t
  have hul : goodComp ul := hucg ul (by simp)
  have hug : ∀ c ∈ ui, goodComp c := fun c hc => hucg c (by simp [hc])
  have hprg : goodComp (str "preprocess-root") :=
    ⟨by decide, by decide, by decide, by decide⟩
  have hA : ∀ c ∈ (ch :: c1t) :: oc' ++ [str "preprocess-root"],
      goodComp c := by
    intro c hc
    rcases List.mem_append.mp hc with h | h
    · exact hocg c h
    · rcases List.mem_singleton.mp h with rfl
      exact hprg
  have hAne : (ch :: c1t) :: oc' ++ [str "preprocess-root"] ≠ [] := by simp
  have hj1 : pjoin (absOf ((ch :: c1t) :: oc')) (str "preprocess-root") =
      absOf ((ch :: c1t) :: oc' ++ [str "preprocess-root"]) := by
    rw [pjoin, if_neg (by decide),
      if_neg (not_or.mpr ⟨absOf_ne_nil _ hoc, absOf_getLastD _ hoc hocg⟩),
      absOf_append, absOf_single]
  have hj2 : pjoin (absOf ((ch :: c1t) :: oc' ++ [str "preprocess-root"]))
      ('.' :: '/' :: (absOf (ui ++ [ul]) ++ suf)) =
      absOf ((ch :: c1t) :: oc' ++ [str "preprocess-root"]) ++
        '/' :: '.' :: '/' :: (absOf (ui ++ [ul]) ++ suf) := by
    rw [pjoin, if_neg (show ¬ (List.take 1
        ('.' :: '/' :: (absOf (ui ++ [ul]) ++ suf)) = str "/") from
      fun h => absurd (List.cons.inj h).1 (by decide)),
      if_neg (not_or.mpr ⟨absOf_ne_nil _ hAne, absOf_getLastD _ hAne hA⟩)]
  rw [getPreprocessOutputName, hj1, hj2]
  have hsplitX : splitSl (absOf (ui ++ [ul]) ++ suf) =
      [] :: (ui ++ [ul ++ suf]) := by
    have hX : absOf (ui ++ [ul]) ++ suf =
        absOf ui ++ '/' :: (ul ++ suf) := by
      rw [absOf_append, absOf_single]
      simp
    rw [hX, splitSl_absOf ui (fun c hc => (hug c hc).2.2.2) (ul ++ suf),
      splitSl_noslash (ul ++ suf)
        (fun hm => by
          rcases List.mem_append.mp hm with h | h
          · exact hul.2.2.2 h
          · exact hsuf h)]
  have hPshape : absOf ((ch :: c1t) :: oc' ++ [str "preprocess-root"]) ++
      '/' :: '.' :: '/' :: (absOf (ui ++ [ul]) ++ suf) =
      '/' :: ch :: (c1t ++
        (absOf (oc' ++ [str "preprocess-root"]) ++
          '/' :: '.' :: '/' :: (absOf (ui ++ [ul]) ++ suf))) := by
    rw [List.cons_append, absOf_cons]
    simp
  have hcomps : splitSl (absOf ((ch :: c1t) :: oc' ++
      [str "preprocess-root"]) ++
      '/' :: '.' :: '/' :: (absOf (ui ++ [ul]) ++ suf)) =
      [] :: (((ch :: c1t) :: oc' ++ [str "preprocess-root"]) ++
        str "." :: [] :: (ui ++ [ul ++ suf])) := by
    rw [splitSl_absOf _ (fun c hc => (hA c hc).2.2.2),
      splitSl_dot_slash, hsplitX]
  have hfold : (([] : Str) :: (((ch :: c1t) :: oc' ++
      [str "preprocess-root"]) ++
      str "." :: [] :: (ui ++ [ul ++ suf]))).foldl (normStep 1) [] =
      ((ch :: c1t) :: oc' ++ [str "preprocess-root"]) ++
        (ui ++ [ul ++ suf]) := by
    rw [List.foldl_cons, normStep_nil, List.foldl_append,
      normStep_fold_good _ _ (fun c hc =>
        ⟨(hA c hc).1, (hA c hc).2.1, (hA c hc).2.2.1⟩),
      List.foldl_cons, normStep_dot, List.foldl_cons, normStep_nil,
      normStep_fold_good _ _ (fun c hc => by
        rcases List.mem_append.mp hc with h | h
        · exact ⟨(hug c h).1, (hug c h).2.1, (hug c h).2.2.1⟩
        · rcases List.mem_singleton.mp h with rfl
          have hgood := cat_good ul suf hul hsuf
          exact ⟨hgood.1, hgood.2.1, hgood.2.2.1⟩)]
    simp
  rw [hPshape]
  rw [pnormpath_clean ch
    (c1t ++ (absOf (oc' ++ [str "preprocess-root"]) ++
      '/' :: '.' :: '/' :: (absOf (ui ++ [ul]) ++ suf))) hch
    (((ch :: c1t) :: oc' ++ [str "preprocess-root"]) ++ (ui ++ [ul ++ suf]))
    (by rw [← hPshape, hcomps]; exact hfold)]
  rw [intersperse_absOf _ (by simp)]
  rw [List.append_assoc, absOf_append, absOf_append, absOf_append,
    absOf_single, absOf_single, absOf_append, absOf_single]
  rw [show (str "/preprocess-root" : Str) = '/' :: str "preprocess-root"
    from rfl]
  simp

/-- Witness for C6: output directory `/out`, origin output `/w/x.o`,
suffix `.ast` give destination `/out/preprocess-root/w/x.o.ast`. -/
theorem claim_C6_witness :
    getPreprocessOutputName (absOf [str "out"])
      (absOf [str "w", str "x.o"]) (str ".ast") =
      absOf [str "out"] ++ str "/preprocess-root" ++
        absOf [str "w", str "x.o"] ++ str ".ast" :=
  claim_C6 [str "out"] [str "w", str "x.o"] (str ".ast") (by decide)
    (by decide) (by decide) (by decide) (by decide)

/-- Counterexample to C6 as stated: the two entries of `dC9` describe the
SAME translation unit `/w/a.c`, yet scheduling the same artifact kind
(suffix `.ast`, output root `/out`) for them produces two different
destination paths — the destination is derived from the entry's output
path, not from the translation unit's source path, so re-runs that assign
a new temporary output name do not overwrite the previous artifact. -/
theorem claim_C6_counterexample :
    dC9.map (fun kv => (kv.2.compilation.file,
      artifactDestination (str "/out") kv.2 (str ".ast"))) =
      [(str "/w/a.c", str "/out/preprocess-root/w/x.o.ast"),
       (str "/w/a.c", str "/out/preprocess-root/w/y.o.ast")] ∧
    str "/out/preprocess-root/w/x.o.ast" ≠
      str "/out/preprocess-root/w/y.o.ast" := by
  decide

/-! ## Helper lemmas: the json profile removes the warning, debug and
optimization tokens -/

theorem mWGO_abs {x : Str} (h : x.take 1 = str "/") : mWGO x = none := by
  unfold mWGO
  rw [if_neg]
  intro hmem
  simp only [List.mem_cons, List.not_mem_nil, or_false] at hmem
  rcases hmem with rfl | rfl | rfl | rfl | rfl | rfl | rfl | rfl | rfl | rfl <;>
    exact absurd h (by decide)

theorem take1_append {a : Str} (b : Str) (h : a.take 1 = str "/") :
    (a ++ b).take 1 = str "/" := by
  cases a with
  | nil => exact absurd h (by decide)
  | cons c t =>
    rw [List.cons_append]
    exact h

theorem ploop_ccJson_inv (cc cxx : Str) (fs : Str → Bool) (pwd : Str)
    (hpwd : pwd.take 1 = str "/") :
    ∀ (fuel : Nat) (l : List Str) (st : PState),
      (∀ a ∈ st.arguments, mWGO a = none) →
      (∀ f ∈ st.files, f.take 1 = str "/") →
      ∀ r, ploop (ccJsonSpec cc cxx) fs pwd fuel l st = .ok (some r) →
        (∀ a ∈ r.arguments, mWGO a = none) ∧
        (∀ f ∈ r.files, f.take 1 = str "/") := by
  intro fuel
  induction fuel with
  | zero =>
    intro l st hargs hfiles r hr
    cases l with
    | nil =>
      cases Option.some.inj (Except.ok.inj hr)
      exact ⟨hargs, hfiles⟩
    | cons a t => exact Except.noConfusion hr
  | succ fuel ih =>
    intro l st hargs hfiles r hr
    cases l with
    | nil =>
      cases Option.some.inj (Except.ok.inj hr)
      exact ⟨hargs, hfiles⟩
    | cons arg rest =>
      rw [ploop] at hr
      split at hr
      · exact Option.noConfusion (Except.ok.inj hr)
      · cases hmr : matchRemove (ccJsonSpec cc cxx).remove arg rest with
        | error e => rw [hmr] at hr; exact Except.noConfusion hr
        | ok ro =>
          rw [hmr] at hr
          cases ro with
          | some cnt =>
            simp only [] at hr
            exact ih _ _ hargs hfiles r hr
          | none =>
            cases hmo : matchOutputRule (ccJsonSpec cc cxx).output arg rest with
            | error e => rw [hmo] at hr; exact Except.noConfusion hr
            | ok ro2 =>
              rw [hmo] at hr
              cases ro2 with
              | some tn =>
                obtain ⟨target, cnt⟩ := tn
                have htar : target = [str "-o",
                    (target.getLastD [])] := by
                  rcases matchOutput_outO_char arg rest with h2 | ⟨x, n, h2, _⟩
                    | ⟨h2, _, _⟩
                  · rw [show (ccJsonSpec cc cxx).output = .param mOutO 1
                      from rfl] at hmo
                    rw [hmo] at h2
                    exact absurd (Except.ok.inj h2) (by simp)
                  · rw [show (ccJsonSpec cc cxx).output = .param mOutO 1
                      from rfl] at hmo
                    rw [hmo] at h2
                    have := Option.some.inj (Except.ok.inj h2)
                    have ht : target = [str "-o", x] :=
                      congrArg Prod.fst this
                    rw [ht]
                    rfl
                  · rw [show (ccJsonSpec cc cxx).output = .param mOutO 1
                      from rfl] at hmo
                    rw [hmo] at h2
                    exact Except.noConfusion h2
                simp only [] at hr
                refine ih _ _ ?_ ?_ r hr
                · intro a ha
                  rcases List.mem_append.mp ha with ha | ha
                  · rcases List.mem_append.mp ha with ha | ha
                    · exact hargs a ha
                    · rw [htar] at ha
                      split at ha
                      · rcases List.mem_singleton.mp
                          (by simpa using ha) with rfl
                        decide
                      · exact absurd ha (List.not_mem_nil a)
                  · rcases List.mem_singleton.mp ha with rfl
                    exact mWGO_abs (pjoin_abs _ hpwd)
                · exact fun f hf => hfiles f hf
              | none =>
                cases hms : matchSource (ccJsonSpec cc cxx).source fs pwd arg
                  with
                | some src =>
                  rw [hms] at hr
                  simp only [] at hr
                  refine ih _ _ ?_ ?_ r hr
                  · intro a ha
                    rcases List.mem_append.mp ha with ha | ha
                    · exact hargs a ha
                    · rcases List.mem_singleton.mp ha with rfl
                      rw [matchSource_eq_some hms]
                      exact mWGO_abs (pjoin_abs _ hpwd)
                  · intro f hf
                    rcases List.mem_append.mp hf with hf | hf
                    · exact hfiles f hf
                    · rcases List.mem_singleton.mp hf with rfl
                      rw [matchSource_eq_some hms]
                      exact pjoin_abs _ hpwd
                | none =>
                  rw [hms] at hr
                  simp only [] at hr
                  refine ih _ _ ?_ ?_ r hr
                  · intro a ha
                    rcases List.mem_append.mp ha with ha | ha
                    · exact hargs a ha
                    · rcases List.mem_singleton.mp ha with rfl
                      have hall := matchRemove_all_none hmr (mWGO, 0)
                        (by rw [show (ccJsonSpec cc cxx).remove =
                            cc1JsonRemoveList from rfl, cc1JsonRemoveList]
                            exact List.mem_append.mpr
                              (Or.inr (List.mem_singleton.mpr rfl)))
                      exact matchParameter_eq_none hall
                  · exact fun f hf => hfiles f hf

theorem parseExec_ccJson_inv (cc cxx : Str) (fs : Str → Bool)
    (args : List Str) (pwd : Str) (hpwd : pwd.take 1 = str "/") (r : ParseRes)
    (h : parseExecutionCommands (ccJsonSpec cc cxx) fs args pwd =
      .ok (some r)) :
    (∀ a ∈ r.arguments, mWGO a = none) ∧
    (∀ f ∈ r.files, f.take 1 = str "/") := by
  cases args with
  | nil => exact Except.noConfusion h
  | cons exe rest =>
    rw [parseExecutionCommands] at h
    cases hex : (ccJsonSpec cc cxx).execMap exe with
    | none =>
      rw [hex] at h
      exact Option.noConfusion (Except.ok.inj h)
    | some exeRes =>
      rw [hex] at h
      cases hp : ploop (ccJsonSpec cc cxx) fs pwd rest.length rest
          ⟨[], [], none⟩ with
      | error e => rw [hp] at h; exact Except.noConfusion h
      | ok os =>
        rw [hp] at h
        cases os with
        | none => exact Option.noConfusion (Except.ok.inj h)
        | some st =>
          have hinv := ploop_ccJson_inv cc cxx fs pwd hpwd rest.length rest
            ⟨[], [], none⟩
            (fun a ha => absurd ha (List.not_mem_nil a))
            (fun f hf => absurd hf (List.not_mem_nil f)) st hp
          simp only [] at h
          rw [finishParse] at h
          cases ho : st.output with
          | none =>
            rw [ho] at h
            cases Option.some.inj (Except.ok.inj h)
            exact hinv
          | some o =>
            rw [ho] at h
            simp only [] at h
            by_cases hoe : o = []
            · rw [if_pos hoe] at h
              cases Option.some.inj (Except.ok.inj h)
              exact hinv
            · rw [if_neg hoe] at h
              by_cases hom : o ∈ st.arguments
              · rw [if_pos hom] at h
                cases Option.some.inj (Except.ok.inj h)
                exact hinv
              · rw [if_neg hom] at h
                exact Except.noConfusion h


theorem ccJson_wgo (cc cxx : Str) (fs : Str → Bool) (job : CDJob)
    (hdir : job.directory.take 1 = str "/")
    (hfile : job.file.take 1 = str "/")
    (p : JsonCompilingCmd)
    (h : ccJsonMatchArguments cc cxx fs job = .ok (some p)) :
    (∃ pre, p.arguments = pre ++ cc1AppendList ∧
      ∀ a ∈ pre, mWGO a = none) ∧
    (∀ f ∈ p.files, f.take 1 = str "/") := by
  rw [ccJsonMatchArguments] at h
  cases hpe : parseExecutionCommands (ccJsonSpec cc cxx) fs job.arguments
      job.directory with
  | error e => rw [hpe] at h; exact Except.noConfusion h
  | ok ro =>
    rw [hpe] at h
    cases ro with
    | none => exact Except.noConfusion h
    | some r =>
      have hinv := parseExec_ccJson_inv cc cxx fs job.arguments job.directory
        hdir r hpe
      simp only [] at h
      cases ho : r.output with
      | none => rw [ho] at h; exact Except.noConfusion h
      | some o =>
        rw [ho] at h
        simp only [] at h
        by_cases hobj : objectFilterB o = true
        · rw [if_pos hobj] at h
          cases Option.some.inj (Except.ok.inj h)
          exact ⟨⟨r.arguments, rfl, hinv.1⟩, hinv.2⟩
        · rw [if_neg hobj] at h
          cases hgt : getTargetID o with
          | error e => rw [hgt] at h; exact Except.noConfusion h
          | ok target =>
            rw [hgt] at h
            simp only [] at h
            cases hoi : r.oindex with
            | none => rw [hoi] at h; exact Except.noConfusion h
            | some oindex =>
              rw [hoi] at h
              simp only [] at h
              by_cases hlen : oindex < r.arguments.length
              · rw [if_pos hlen] at h
                cases Option.some.inj (Except.ok.inj h)
                refine ⟨⟨r.arguments.set oindex
                  (job.file ++ '.' :: target ++ str ".o"), rfl, ?_⟩, hinv.2⟩
                intro a ha
                rcases List.mem_or_eq_of_mem_set ha with ha | rfl
                · exact hinv.1 a ha
                · exact mWGO_abs (take1_append _ (take1_append _ hfile))
              · rw [if_neg hlen] at h
                exact Except.noConfusion h

theorem indexOf_append_left {α : Type} [DecidableEq α] {a : α} :
    ∀ (l1 l2 : List α), a ∈ l1 →
    (l1 ++ l2).indexOf a = l1.indexOf a := by
  intro l1
  induction l1 with
  | nil => intro l2 h; exact absurd h (List.not_mem_nil a)
  | cons x t ih =>
    intro l2 h
    rw [List.cons_append]
    by_cases hx : x = a
    · subst hx
      rw [List.indexOf_cons_self, List.indexOf_cons_self]
    · rw [List.indexOf_cons_ne _ hx, List.indexOf_cons_ne _ hx,
        ih l2 ((List.mem_cons.mp h).resolve_left (fun he => hx he.symm))]

theorem insertIdx_append_left {α : Type} :
    ∀ (l1 : List α) (i : Nat) (l2 : List α) (x : α), i ≤ l1.length →
    (l1 ++ l2).insertIdx i x = (l1.insertIdx i x) ++ l2 := by
  intro l1
  induction l1 with
  | nil =>
    intro i l2 x hi
    rw [Nat.le_zero.mp hi]
    rfl
  | cons y t ih =>
    intro i l2 x hi
    cases i with
    | zero => rfl
    | succ i =>
      rw [List.cons_append, List.insertIdx_succ_cons,
        List.insertIdx_succ_cons, ih i l2 x (Nat.le_of_succ_le_succ hi),
        List.cons_append]

theorem eraseIdx_append_left {α : Type} :
    ∀ (l1 : List α) (i : Nat) (l2 : List α), i < l1.length →
    (l1 ++ l2).eraseIdx i = (l1.eraseIdx i) ++ l2 := by
  intro l1
  induction l1 with
  | nil => intro i l2 hi; exact absurd hi (Nat.not_lt_zero i)
  | cons y t ih =>
    intro i l2 hi
    cases i with
    | zero => rfl
    | succ i =>
      rw [List.cons_append, List.eraseIdx_cons_succ, List.eraseIdx_cons_succ,
        ih i l2 (Nat.lt_of_succ_lt_succ hi), List.cons_append]

theorem mem_of_insertIdx {α : Type} {a x : α} :
    ∀ (l : List α) (i : Nat), a ∈ l.insertIdx i x → a = x ∨ a ∈ l := by
  intro l
  induction l with
  | nil =>
    intro i h
    cases i with
    | zero => exact Or.inl (List.mem_singleton.mp h)
    | succ i => exact absurd h (List.not_mem_nil a)
  | cons y t ih =>
    intro i h
    cases i with
    | zero =>
      rcases List.mem_cons.mp h with rfl | h
      · exact Or.inl rfl
      · exact Or.inr h
    | succ i =>
      rw [List.insertIdx_succ_cons] at h
      rcases List.mem_cons.mp h with rfl | h
      · exact Or.inr (List.mem_cons_self _ _)
      · rcases ih i h with h | h
        · exact Or.inl h
        · exact Or.inr (List.mem_cons_of_mem _ h)

theorem mem_of_eraseIdx {α : Type} {a : α} :
    ∀ (l : List α) (i : Nat), a ∈ l.eraseIdx i → a ∈ l := by
  intro l
  induction l with
  | nil => intro i h; exact absurd h (List.not_mem_nil a)
  | cons y t ih =>
    intro i h
    cases i with
    | zero => exact List.mem_cons_of_mem _ h
    | succ i =>
      rw [List.eraseIdx_cons_succ] at h
      rcases List.mem_cons.mp h with rfl | h
      · exact List.mem_cons_self _ _
      · exact List.mem_cons_of_mem _ (ih i h)

theorem pyIndex_ok_mem {α : Type} [DecidableEq α] {l : List α} {x : α}
    {i : Nat} (h : pyIndex l x = .ok i) : x ∈ l := by
  rw [pyIndex] at h
  split at h
  · assumption
  · exact Except.noConfusion h

theorem pyRemove_ok_mem {α : Type} [DecidableEq α] {l : List α} {x : α}
    {res : List α} (h : pyRemove l x = .ok res) : x ∈ l := by
  rw [pyRemove] at h
  split at h
  · assumption
  · exact Except.noConfusion h

theorem pyIndex_insert_split {α : Type} [DecidableEq α] {l1 l2 : List α}
    {x : α} {i : Nat} (hx : x ∈ l1) (h : pyIndex (l1 ++ l2) x = .ok i)
    (c : α) :
    (l1 ++ l2).insertIdx i c = (l1.insertIdx i c) ++ l2 ∧ i ≤ l1.length := by
  rw [pyIndex, if_pos (List.mem_append_left l2 hx)] at h
  cases Except.ok.inj h
  have h1 : (l1 ++ l2).indexOf x = l1.indexOf x := indexOf_append_left l1 l2 hx
  have h2 : l1.indexOf x < l1.length := List.indexOf_lt_length.mpr hx
  rw [h1]
  exact ⟨insertIdx_append_left l1 _ l2 c (le_of_lt h2), le_of_lt h2⟩

theorem pyRemove_split {α : Type} [DecidableEq α] {l1 l2 : List α} {x : α}
    {res : List α} (hx : x ∈ l1) (h : pyRemove (l1 ++ l2) x = .ok res) :
    ∃ i, i < l1.length ∧ res = (l1.eraseIdx i) ++ l2 := by
  rw [pyRemove, if_pos (List.mem_append_left l2 hx)] at h
  have he := (Except.ok.inj h).symm
  refine ⟨l1.indexOf x, List.indexOf_lt_length.mpr hx, ?_⟩
  rw [he, indexOf_append_left l1 l2 hx,
    eraseIdx_append_left l1 _ l2 (List.indexOf_lt_length.mpr hx)]

theorem abs_not_in_append : ∀ {x : Str}, x.take 1 = str "/" →
    x ∉ cc1AppendList := by
  intro x hx hmem
  rcases List.mem_cons.mp hmem with rfl | hmem
  · exact absurd hx (by decide)
  rcases List.mem_cons.mp hmem with rfl | hmem
  · exact absurd hx (by decide)
  rcases List.mem_cons.mp hmem with rfl | hmem
  · exact absurd hx (by decide)
  · exact absurd hmem (List.not_mem_nil x)

theorem reformat_pre (ifile : Str) (hif : ifile.take 1 = str "/") :
    ∀ (files : List Str), (∀ f ∈ files, f.take 1 = str "/") →
    ∀ (pre : List Str) (compilation : Bool) (res : List Str),
      (∀ a ∈ pre, mWGO a = none) →
      reformatInputFile id ifile (pre ++ cc1AppendList) files compilation =
        .ok res →
      ∃ pre', res = pre' ++ cc1AppendList ∧ ∀ a ∈ pre', mWGO a = none := by
  intro files
  induction files with
  | nil =>
    intro _ pre compilation res hpre h
    rw [reformatInputFile] at h
    cases Except.ok.inj h
    exact ⟨pre, rfl, hpre⟩
  | cons rm rest ih =>
    intro hfs pre compilation res hpre h
    have hfs' : ∀ f ∈ rest, f.take 1 = str "/" :=
      fun f hf => hfs f (List.mem_cons_of_mem rm hf)
    rw [reformatInputFile] at h
    simp only [id_eq] at h
    split at h
    · split at h
      · cases hpi : pyIndex (pre ++ cc1AppendList) ifile with
        | error e => rw [hpi] at h; exact Except.noConfusion h
        | ok idx =>
          rw [hpi] at h
          simp only [] at h
          have hmempre : ifile ∈ pre :=
            (List.mem_append.mp (pyIndex_ok_mem hpi)).resolve_right
              (abs_not_in_append hif)
          obtain ⟨hins, hle⟩ := pyIndex_insert_split hmempre hpi (str "-c")
          rw [hins] at h
          refine ih hfs' (pre.insertIdx idx (str "-c")) compilation res ?_ h
          intro a ha
          rcases mem_of_insertIdx pre idx ha with rfl | ha
          · decide
          · exact hpre a ha
      · exact ih hfs' pre compilation res hpre h
    · cases hpr : pyRemove (pre ++ cc1AppendList) rm with
      | error e => rw [hpr] at h; exact Except.noConfusion h
      | ok args2 =>
        rw [hpr] at h
        simp only [] at h
        have hrmabs : rm.take 1 = str "/" := hfs rm (List.mem_cons_self _ _)
        have hmempre : rm ∈ pre :=
          (List.mem_append.mp (pyRemove_ok_mem hpr)).resolve_right
            (abs_not_in_append hrmabs)
        obtain ⟨i2, hi2, hres⟩ := pyRemove_split hmempre hpr
        rw [hres] at h
        refine ih hfs' (pre.eraseIdx i2) compilation res ?_ h
        intro a ha
        exact hpre a (mem_of_eraseIdx pre i2 ha)

theorem parseCDJob_wgo (cc cxx : Str) (fs : Str → Bool)
    (acc : List (Str × JsonCompilingCmd)) (job : CDJob)
    (hdir : job.directory.take 1 = str "/")
    (acc' : List (Str × JsonCompilingCmd))
    (h : parseCDJob cc cxx fs acc job = .ok acc') :
    ∃ p, acc' = dinsert acc p.output p ∧
      ∃ pre, JsonCompilingCmd.arguments p = pre ++ cc1AppendList ∧
        ∀ a ∈ pre, mWGO a = none := by
  simp only [parseCDJob] at h
  cases h1 : ccJsonMatchArguments cc cxx fs
      { job with file := pjoin job.directory job.file } with
  | error e => rw [h1] at h; exact Except.noConfusion h
  | ok parsed =>
    rw [h1] at h
    cases parsed with
    | none => exact Except.noConfusion h
    | some p =>
      simp only [] at h
      have hwgo := ccJson_wgo cc cxx fs
        { job with file := pjoin job.directory job.file } hdir
        (pjoin_abs job.file hdir) p h1
      obtain ⟨⟨pre, hargs, hpre⟩, hfiles⟩ := hwgo
      cases h2 : reformatInputFile id (pjoin job.directory job.file)
          p.arguments p.files (str "-c" ∈ p.arguments) with
      | error e => rw [h2] at h; exact Except.noConfusion h
      | ok args =>
        rw [h2] at h
        simp only [] at h
        cases Except.ok.inj h
        rw [hargs] at h2
        obtain ⟨pre', hres, hpre'⟩ := reformat_pre
          (pjoin job.directory job.file) (pjoin_abs job.file hdir)
          p.files hfiles pre (str "-c" ∈ pre ++ cc1AppendList) args hpre h2
        exact ⟨{ p with arguments := args }, rfl, pre', hres, hpre'⟩

/-- C10: each entry of the database re-parsed for artifact regeneration
carries a reconstructed argument list that ends with the appended tokens
`-w -g -O0`, and every token before that tail fails the
`^-(w|g|O([0123sg]|fast)?)$` pattern — the original warning, debug and
optimization flags were removed during classification, so every
regenerated artifact is built with warnings suppressed, debug info on and
optimization disabled. (Directories are required to be absolute, as the
tool is run on databases produced from absolute working directories.) -/
theorem claim_C10 (cc cxx : Str) (fs : Str → Bool) (jobs : List CDJob)
    (hdir : ∀ j ∈ jobs, j.directory.take 1 = str "/")
    (d : List (Str × JsonCompilingCmd))
    (h : parseCDList cc cxx fs jobs = .ok (some d)) :
    ∀ kv ∈ d, ∃ pre, kv.2.arguments = pre ++ cc1AppendList ∧
      ∀ a ∈ pre, mWGO a = none := by
  unfold parseCDList at h
  split at h
  · exact absurd (Except.ok.inj h) (by simp)
  · have haux : ∀ (js : List CDJob), (∀ j ∈ js, j.directory.take 1 = str "/") →
        ∀ (acc : List (Str × JsonCompilingCmd)),
        (∀ kv ∈ acc, ∃ pre, JsonCompilingCmd.arguments kv.2 =
          pre ++ cc1AppendList ∧ ∀ a ∈ pre, mWGO a = none) →
        ∀ dd, List.foldlM (parseCDJob cc cxx fs) acc js = .ok dd →
        ∀ kv ∈ dd, ∃ pre, JsonCompilingCmd.arguments kv.2 =
          pre ++ cc1AppendList ∧ ∀ a ∈ pre, mWGO a = none := by
      intro js
      induction js with
      | nil =>
        intro _ acc hacc dd hdd
        cases Except.ok.inj hdd
        exact hacc
      | cons job js ih =>
        intro hjs acc hacc dd hdd
        rw [List.foldlM_cons] at hdd
        cases hstep : parseCDJob cc cxx fs acc job with
        | error e => rw [hstep] at hdd; exact Except.noConfusion hdd
        | ok acc' =>
          rw [hstep] at hdd
          obtain ⟨p, rfl, pre, hargs, hpre⟩ := parseCDJob_wgo cc cxx fs acc
            job (hjs job (List.mem_cons_self _ _)) acc' hstep
          exact ih (fun j hj => hjs j (List.mem_cons_of_mem _ hj)) _
            (dinsert_forall hacc ⟨pre, hargs, hpre⟩) dd hdd
    cases hx : List.foldlM (parseCDJob cc cxx fs)
        ([] : List (Str × JsonCompilingCmd)) jobs with
    | error e =>
      rw [hx] at h
      exact Except.noConfusion h
    | ok dd0 =>
      rw [hx] at h
      cases Option.some.inj (Except.ok.inj h)
      exact haux jobs hdir []
        (fun kv hkv => absurd hkv (List.not_mem_nil kv)) _ hx

/-- Witness for C10: the first entry of the re-parsed database `dC9` — its
arguments end in `-w -g -O0` with a pattern-free prefix (the original
`-O2`, `-Wall`, `-g` flags are gone). -/
theorem claim_C10_witness :
    ∃ pre, JsonCompilingCmd.arguments
      ⟨str "cc", str "/w", [str "/w/a.c"],
        [str "-c", str "/w/a.c", str "-o", str "/w/x.o", str "-w", str "-g",
         str "-O0"], str "/w/x.o", some 3,
        ⟨str "/w", str "/w/a.c", [str "gcc", str "-O2", str "-Wall",
          str "-g", str "-c", str "a.c", str "-o", str "x.o"]⟩⟩ =
      pre ++ cc1AppendList ∧ ∀ a ∈ pre, mWGO a = none :=
  claim_C10 (str "cc") (str "c++") fsAC jobsSameSource (by decide) dC9
    (by decide)
    (str "/w/x.o",
      ⟨str "cc", str "/w", [str "/w/a.c"],
        [str "-c", str "/w/a.c", str "-o", str "/w/x.o", str "-w", str "-g",
         str "-O0"], str "/w/x.o", some 3,
        ⟨str "/w", str "/w/a.c", [str "gcc", str "-O2", str "-Wall",
          str "-g", str "-c", str "a.c", str "-o", str "x.o"]⟩⟩)
    (by decide)
